import Mathlib

/-!
The unused-style reduction engine of velopress-server.

A shallow embedding of `src/purge/reduceUnusedCss.js` and
`src/utils/removeDuplicateCss.js`.

* JavaScript strings are lists of characters (`Str`).
* The pattern literal of line 40 and the patterns of line 139, whose sources are fixed texts,
  are embedded through a pattern reader (`RegExp.new`) into a small regular-expression tree
  (`Re`) with a backtracking matcher (`Re.m`).  The reader covers the patterns made of
  characters of the Basic Multilingual Plane, `\s \d \w`, control and identity escapes, groups,
  `|`, `$` and the greedy quantifiers `* + ?`: on these, matching character by character and
  matching UTF-16 code unit by code unit agree.  It answers `unmodelledRegExp` for every other
  construct and makes no statement about it.
* The pattern of line 27 is built from caller text, so the corrective pass takes the `RegExp`
  constructor of the JavaScript engine as a parameter (`RegExpConstructor`, the field `regExp`
  of `Collaborators`); `referenceRegExp` is the embedded reader as such a constructor.
* A stylesheet is the node tree postcss hands to a plugin (`Css`).
* The collaborators that live outside the repository (postcss parsing and printing, PurgeCSS,
  postcss-discard-duplicates) are parameters (`PostCss`, `Collaborators`).
-/

namespace Velopress

/-- A JavaScript string, as the list of its characters. -/
abbrev Str := List Char

/-- Failures that abort a call. -/
inductive Error where
  /-- `new RegExp(src)` throws: `src` is not a pattern. -/
  | invalidRegExp
  /-- Only answered by the embedded pattern reader: the pattern uses a construct the reader
  does not cover. -/
  | unmodelledRegExp
  /-- The postcss reader rejects the text (`CssSyntaxError`). -/
  | malformedCss
  /-- A collaborator (PurgeCSS, a postcss plugin) throws. -/
  | collaborator
  deriving DecidableEq, Repr

deriving instance DecidableEq for Except

/-! ## Strings -/

/-- `String.prototype.startsWith`. -/
def startsWith : Str → Str → Bool
  | _, [] => true
  | [], _ :: _ => false
  | c :: cs, p :: ps => c == p && startsWith cs ps

/-- `Array.prototype.includes` on an array of strings. -/
def includes (xs : List Str) (x : Str) : Bool :=
  xs.any (fun y => y == x)

/-! ## Regular expressions -/

/-- What `\s` matches: the ECMAScript WhiteSpace and LineTerminator code points. -/
def isJsSpace (c : Char) : Bool :=
  c == ' ' || c == '\t' || c == '\n' || c == '\r' || c.toNat == 0x0B || c.toNat == 0x0C ||
  c.toNat == 0xA0 || c.toNat == 0x1680 || (0x2000 ≤ c.toNat && c.toNat ≤ 0x200A) ||
  c.toNat == 0x2028 || c.toNat == 0x2029 || c.toNat == 0x202F || c.toNat == 0x205F ||
  c.toNat == 0x3000 || c.toNat == 0xFEFF

/-- What `\d` matches. -/
def isJsDigit (c : Char) : Bool :=
  '0'.toNat ≤ c.toNat && c.toNat ≤ '9'.toNat

/-- What `\w` matches. -/
def isJsWord (c : Char) : Bool :=
  isJsDigit c || ('a'.toNat ≤ c.toNat && c.toNat ≤ 'z'.toNat) ||
  ('A'.toNat ≤ c.toNat && c.toNat ≤ 'Z'.toNat) || c == '_'

/-- The character class escapes `\s`, `\d`, `\w`. -/
inductive CharClass where
  | space | digit | word
  deriving DecidableEq, Repr

/-- Membership of a character in a class escape. -/
def CharClass.test : CharClass → Char → Bool
  | .space, c => isJsSpace c
  | .digit, c => isJsDigit c
  | .word, c => isJsWord c

/-- Regular-expression trees. -/
inductive Re where
  /-- The empty pattern. -/
  | eps
  /-- One literal character. -/
  | chr (c : Char)
  /-- A class escape such as `\s`. -/
  | cls (k : CharClass)
  /-- The assertion `$` (no `m` flag: end of input). -/
  | eol
  /-- Concatenation. -/
  | seq (a b : Re)
  /-- Alternation `a|b`, left alternative tried first. -/
  | alt (a b : Re)
  /-- Greedy `a*`. -/
  | star (a : Re)
  /-- Greedy `a+`. -/
  | plus (a : Re)
  /-- Greedy `a?`. -/
  | opt (a : Re)
  deriving DecidableEq, Repr

/-- Iterations of a starred body `f`: every iteration has to consume input (the empty check of
the ECMAScript RepeatMatcher), one more iteration is tried before stopping.  The counter bounds
the number of iterations by the length of the input. -/
def starLoop (f : Str → List Str) : Nat → Str → List Str
  | 0, s => [s]
  | n + 1, s =>
    ((f s).filter (fun r => decide (r.length < s.length))).flatMap (starLoop f n) ++ [s]

/-- The backtracking matcher: `re.m s` lists, in the order the ECMAScript matcher explores them,
the remainders of `s` after a match of `re` at the start of `s`.  The head of the list is the
remainder of the match that `exec` reports. -/
def Re.m : Re → Str → List Str
  | .eps, s => [s]
  | .chr _, [] => []
  | .chr c, x :: xs => if x = c then [xs] else []
  | .cls _, [] => []
  | .cls k, x :: xs => if k.test x then [xs] else []
  | .eol, s => if s.isEmpty then [s] else []
  | .seq a b, s => (a.m s).flatMap b.m
  | .alt a b, s => a.m s ++ b.m s
  | .star a, s => starLoop a.m s.length s
  | .plus a, s => (a.m s).flatMap (fun r => starLoop a.m r.length r)
  | .opt a, s => (a.m s).filter (fun r => decide (r.length < s.length)) ++ [s]

/-- Does `re` match at the start of `s`? -/
def Re.matchesAt (re : Re) (s : Str) : Bool :=
  !(re.m s).isEmpty

/-- Is there a position of `s` at which `re` matches?  (`RegExp.prototype.test`, and the
truthiness of `String.prototype.match`, for a pattern without the `g` flag.) -/
def Re.search (re : Re) : Str → Bool
  | [] => re.matchesAt []
  | c :: cs => re.matchesAt (c :: cs) || Re.search re cs

/-- The successive matches of a pattern with the `g` flag, with their start index: the scan
carries the index `pos` of the current character and the number `skip` of characters still
covered by the previous match.  After an empty match the scan moves one character on. -/
def Re.execAll (re : Re) : Nat → Nat → Str → List (Nat × Str)
  | pos, skip, [] =>
    if skip = 0 ∧ re.matchesAt [] then [(pos, [])] else []
  | pos, skip + 1, _ :: cs => Re.execAll re (pos + 1) skip cs
  | pos, 0, c :: cs =>
    match re.m (c :: cs) with
    | [] => Re.execAll re (pos + 1) 0 cs
    | r :: _ =>
      (pos, (c :: cs).take ((c :: cs).length - r.length)) ::
        Re.execAll re (pos + 1) ((c :: cs).length - r.length - 1) cs

/-- `String.prototype.match` with a `g` pattern: `null` (here `none`) when nothing matches,
otherwise the array of matched substrings. -/
def strMatchGlobal (re : Re) (s : Str) : Option (List Str) :=
  match (re.execAll 0 0 s).map Prod.snd with
  | [] => none
  | ms => some ms

/-- Concatenation of a list of terms. -/
def seqOf : List Re → Re
  | [] => .eps
  | r :: rs => .seq r (seqOf rs)

/-- The pattern that matches the characters of `s` literally. -/
def Re.lit (s : Str) : Re :=
  seqOf (s.map Re.chr)

/-- What the pattern reader knows about the term it read last. -/
inductive LastTerm where
  /-- No term yet, or an assertion: a quantifier here has nothing to repeat. -/
  | none
  /-- An atom: a quantifier may follow. -/
  | atom
  /-- A quantified atom: `?` would make it lazy, `*` and `+` have nothing to repeat. -/
  | quantified
  deriving DecidableEq, Repr

/-- The disjunction being read: finished alternatives and the terms of the current
alternative, both most recent first. -/
structure Frame where
  alts : List Re
  terms : List Re
  last : LastTerm
  deriving DecidableEq, Repr

/-- The frame of a disjunction that has just been opened. -/
def Frame.empty : Frame :=
  ⟨[], [], .none⟩

/-- The frame after an atom. -/
def Frame.push (f : Frame) (a : Re) : Frame :=
  ⟨f.alts, a :: f.terms, .atom⟩

/-- The frame after an assertion. -/
def Frame.pushAssertion (f : Frame) (a : Re) : Frame :=
  ⟨f.alts, a :: f.terms, .none⟩

/-- The frame after `|`. -/
def Frame.bar (f : Frame) : Frame :=
  ⟨seqOf f.terms.reverse :: f.alts, [], .none⟩

/-- The disjunction a frame stands for. -/
def Frame.close (f : Frame) : Re :=
  f.alts.foldl (fun acc a => Re.alt a acc) (seqOf f.terms.reverse)

/-- The frame after a quantifier, or the error the quantifier raises. -/
def Frame.quantify (f : Frame) (q : Re → Re) (isQuestion : Bool) : Except Error Frame :=
  match f.last, f.terms with
  | .atom, t :: ts => .ok ⟨f.alts, q t :: ts, .quantified⟩
  | .quantified, _ => if isQuestion then .error .unmodelledRegExp else .error .invalidRegExp
  | _, _ => .error .invalidRegExp

/-- The atom of `\c`.  Letters and digits other than `s d w` and the control escapes (the
negated classes, back-references, `\b`, `\u....`, ...) are not covered, nor is a character
outside the Basic Multilingual Plane. -/
def escapeAtom (c : Char) : Option Re :=
  if c = 's' then some (.cls .space)
  else if c = 'd' then some (.cls .digit)
  else if c = 'w' then some (.cls .word)
  else if c = 't' then some (.chr '\t')
  else if c = 'n' then some (.chr '\n')
  else if c = 'r' then some (.chr '\r')
  else if c = 'f' then some (.chr (Char.ofNat 0x0C))
  else if c = 'v' then some (.chr (Char.ofNat 0x0B))
  else if isJsWord c = true ∨ 0x10000 ≤ c.toNat then none
  else some (.chr c)

/-- Where the pattern reader stands: in plain text, right after a backslash, right after `(`,
or right after `(?`. -/
inductive Mode where
  | normal | escape | opened | openedQuestion
  deriving DecidableEq, Repr

/-- The pattern reader, one character at a time, with the stack of the enclosing groups.
Not covered: the dot, `^`, character classes, braces, lazy quantifiers, the `(?` groups other
than `(?:`, and characters outside the Basic Multilingual Plane. -/
def parseLoop : Str → Mode → Frame → List Frame → Except Error Re
  | [], mode, f, stack =>
    match mode, stack with
    | .normal, [] => .ok f.close
    | _, _ => .error .invalidRegExp
  | c :: rest, mode, f, stack =>
    if mode = .escape then
      match escapeAtom c with
      | some a => parseLoop rest .normal (f.push a) stack
      | none => .error .unmodelledRegExp
    else if mode = .openedQuestion then
      if c = ':' then parseLoop rest .normal f stack else .error .unmodelledRegExp
    else if mode = .opened ∧ c = '?' then parseLoop rest .openedQuestion f stack
    else if c = '\\' then parseLoop rest .escape f stack
    else if c = '(' then parseLoop rest .opened Frame.empty (f :: stack)
    else if c = ')' then
      match stack with
      | [] => .error .invalidRegExp
      | g :: stack2 => parseLoop rest .normal (g.push f.close) stack2
    else if c = '|' then parseLoop rest .normal f.bar stack
    else if c = '*' then
      match f.quantify Re.star false with
      | .ok g => parseLoop rest .normal g stack
      | .error e => .error e
    else if c = '+' then
      match f.quantify Re.plus false with
      | .ok g => parseLoop rest .normal g stack
      | .error e => .error e
    else if c = '?' then
      match f.quantify Re.opt true with
      | .ok g => parseLoop rest .normal g stack
      | .error e => .error e
    else if c = '$' then parseLoop rest .normal (f.pushAssertion .eol) stack
    else if c = '.' ∨ c = '^' ∨ c = '[' ∨ c = '\x7b' ∨ 0x10000 ≤ c.toNat then
      .error .unmodelledRegExp
    else parseLoop rest .normal (f.push (.chr c)) stack

/-- A `RegExp` object: its source text and the pattern read from it. -/
structure RegExp where
  source : Str
  re : Re
  deriving DecidableEq, Repr

/-- `new RegExp(source)`. -/
def RegExp.new (source : Str) : Except Error RegExp :=
  match parseLoop source .normal Frame.empty [] with
  | .ok re => .ok ⟨source, re⟩
  | .error e => .error e

/-- `RegExp.prototype.test`; also the truthiness of `text.match(regexp)`. -/
def RegExp.test (r : RegExp) (text : Str) : Bool :=
  r.re.search text

/-- The `RegExp` constructor of a JavaScript engine, as far as the corrective pass uses it:
`new RegExp(source)` throws, or gives a pattern of which the pass only asks whether a text
contains a match of it. -/
abbrev RegExpConstructor := Str → Except Error (Str → Bool)

/-- The embedded reader and matcher as a constructor. -/
def referenceRegExp : RegExpConstructor := fun source =>
  match RegExp.new source with
  | .ok regexp => .ok regexp.test
  | .error e => .error e

/-! ## The Selector Classifier (`detectComplexSelectors`, lines 39-53) -/

/-- The closed keyword list, in the order of the alternation. -/
def complexSelectorKeywords : List Str :=
  ["after", "before", "where", "is", "not", "has", "nth-child", "nth-of-type", "first-child",
    "last-child", "focus-within", "focus", "hover"].map String.toList

/-- The fragments the classifier can report: `:` followed by a keyword. -/
def recognisedFragments : List Str :=
  complexSelectorKeywords.map (fun k => ':' :: k)

/-- The alternation of a non-empty list of patterns, as the reader nests it. -/
def altOf : List Re → Re
  | [] => .eps
  | [a] => a
  | a :: b :: rest => .alt a (altOf (b :: rest))

/-- The source text of the pattern literal of line 40 (its `g` flag apart). -/
def complexSelectorsSource : Str :=
  (":(after|before|where|is|not|has|nth-child|nth-of-type|first-child|last-child|" ++
    "focus-within|focus|hover)").toList

/-- The pattern of line 40: a colon, then the group of the thirteen keywords. -/
def complexSelectorsRegex : Re :=
  .seq (.chr ':') (.seq (altOf (complexSelectorKeywords.map Re.lit)) .eps)

/-- The body of the `forEach` of lines 45-49. -/
def pushUnique (complexSelectors : List Str) (selector : Str) : List Str :=
  if includes complexSelectors selector then complexSelectors else complexSelectors ++ [selector]

/-- `detectComplexSelectors(css)`. -/
def detectComplexSelectors (css : Str) : List Str :=
  match strMatchGlobal complexSelectorsRegex css with
  | none => []
  | some found => found.foldl pushUnique []

/-- The start index of the first of the matches `found` whose text is `fragment` (`none`
standing for no such match). -/
def firstIndexIn (found : List (Nat × Str)) (none : Nat) (fragment : Str) : Nat :=
  match found.find? (fun p => p.2 == fragment) with
  | some p => p.1
  | .none => none

/-- The index of the first match of the classifier pattern whose text is `fragment`
(the length of the text when there is none). -/
def firstMatchIndex (css fragment : Str) : Nat :=
  firstIndexIn (complexSelectorsRegex.execAll 0 0 css) css.length fragment

/-! ## Stylesheets -/

/-- The node tree of a stylesheet, as a sequence of nodes: each constructor is one postcss node
followed by its later siblings (`rest`).  Layout (the `raws` of postcss) is not part of it. -/
inductive Css where
  /-- No node left. -/
  | nil
  /-- A declaration or a comment, kept as text. -/
  | decl (text : Str) (rest : Css)
  /-- A rule: selector and the nodes of its block. -/
  | rule (selector : Str) (body : Css) (rest : Css)
  /-- An at-rule with a block. -/
  | atRule (name params : Str) (body : Css) (rest : Css)
  /-- An at-rule without a block, such as an `@import`. -/
  | atRuleNoBody (name params : Str) (rest : Css)
  deriving DecidableEq, Repr

/-- The nodes of `a` followed by the nodes of `b`. -/
def Css.append : Css → Css → Css
  | .nil, b => b
  | .decl t rest, b => .decl t (rest.append b)
  | .rule sel body rest, b => .rule sel body (rest.append b)
  | .atRule n p body rest, b => .atRule n p body (rest.append b)
  | .atRuleNoBody n p rest, b => .atRuleNoBody n p (rest.append b)

/-- The selectors of all the rules of a stylesheet, at any depth, in document order. -/
def Css.selectors : Css → List Str
  | .nil => []
  | .decl _ rest => rest.selectors
  | .rule sel body rest => sel :: (body.selectors ++ rest.selectors)
  | .atRule _ _ body rest => body.selectors ++ rest.selectors
  | .atRuleNoBody _ _ rest => rest.selectors

/-- The postcss collaborator: reading a text into a node tree and printing a tree. -/
structure PostCss where
  /-- The default reader, which rejects malformed text. -/
  parse : Str → Except Error Css
  /-- The reader of postcss-safe-parser, which never rejects. -/
  safeParse : Str → Css
  /-- The printer (`toString`, `result.css`). -/
  stringify : Css → Str

/-! ## The corrective pass (`removeChildSelectorsPlugin`, lines 19-35) -/

/-- The source of the pattern of line 27. -/
def childSelectorSource (safe : Str) : Str :=
  "\\.".toList ++ safe ++ "\\s+".toList

/-- The condition of the `if` of lines 24-28 for one safelist entry: the two `startsWith`
tests first; the pattern is only built when both fail. -/
def childSelectorTest (newRegExp : RegExpConstructor) (safe selector : Str) :
    Except Error Bool :=
  if startsWith selector ('.' :: safe ++ [' ']) then .ok true
  else if startsWith selector ('.' :: safe ++ ['>']) then .ok true
  else
    match newRegExp (childSelectorSource safe) with
    | .ok test => .ok (test selector)
    | .error e => .error e

/-- The `for ... of safelist` loop of lines 23-32 with its `break`: is `rule.remove()`
called? -/
def removesRule (newRegExp : RegExpConstructor) : List Str → Str → Except Error Bool
  | [], _ => .ok false
  | safe :: rest, selector =>
    match childSelectorTest newRegExp safe selector with
    | .ok true => .ok true
    | .ok false => removesRule newRegExp rest selector
    | .error e => .error e

/-- The plugin run over a tree: postcss calls `Rule` on every rule, at any depth, a rule before
the rules of its block; a removed rule goes with its block. -/
def removeChildSelectorsPlugin (newRegExp : RegExpConstructor) (safelist : List Str) :
    Css → Except Error Css
  | .nil => .ok .nil
  | .decl t rest =>
    match removeChildSelectorsPlugin newRegExp safelist rest with
    | .ok rest2 => .ok (.decl t rest2)
    | .error e => .error e
  | .rule sel body rest =>
    match removesRule newRegExp safelist sel with
    | .error e => .error e
    | .ok true => removeChildSelectorsPlugin newRegExp safelist rest
    | .ok false =>
      match removeChildSelectorsPlugin newRegExp safelist body with
      | .error e => .error e
      | .ok body2 =>
        match removeChildSelectorsPlugin newRegExp safelist rest with
        | .ok rest2 => .ok (.rule sel body2 rest2)
        | .error e => .error e
  | .atRule n p body rest =>
    match removeChildSelectorsPlugin newRegExp safelist body with
    | .error e => .error e
    | .ok body2 =>
      match removeChildSelectorsPlugin newRegExp safelist rest with
      | .ok rest2 => .ok (.atRule n p body2 rest2)
      | .error e => .error e
  | .atRuleNoBody n p rest =>
    match removeChildSelectorsPlugin newRegExp safelist rest with
    | .ok rest2 => .ok (.atRuleNoBody n p rest2)
    | .error e => .error e

/-- A character of a class-name token: a letter, a digit, `-` or `_`. -/
def isClassNameChar (c : Char) : Bool :=
  isJsWord c || c == '-'

/-- A class-name token: a non-empty string of letters, digits, `-` and `_`. -/
def isClassName (s : Str) : Bool :=
  !s.isEmpty && s.all isClassNameChar

/-- Specification: the text contains a match of the regular expression with the given
source. -/
def regExpMatches (newRegExp : RegExpConstructor) (source text : Str) : Bool :=
  match newRegExp source with
  | .ok test => test text
  | .error _ => false

/-- Specification of the removal test (4.5 step 4): there is a safelist entry `s` such that
the selector starts with `.s ` or with `.s>`, or contains a match of `\.s\s+`. -/
def isChildOfSafelisted (newRegExp : RegExpConstructor) (safelist : List Str)
    (selector : Str) : Bool :=
  safelist.any (fun s =>
    startsWith selector ('.' :: s ++ [' ']) || startsWith selector ('.' :: s ++ ['>']) ||
      regExpMatches newRegExp (childSelectorSource s) selector)

/-- Specification of the corrective pass: the stylesheet without the rules whose selector
satisfies `p` (a rule goes with its block), everything else kept in its order. -/
def Css.dropRules (p : Str → Bool) : Css → Css
  | .nil => .nil
  | .decl t rest => .decl t (rest.dropRules p)
  | .rule sel body rest =>
    if p sel then rest.dropRules p else .rule sel (body.dropRules p) (rest.dropRules p)
  | .atRule n q body rest => .atRule n q (body.dropRules p) (rest.dropRules p)
  | .atRuleNoBody n q rest => .atRuleNoBody n q (rest.dropRules p)

/-! ## The Media Partitioner (`extractMediaQueries`, lines 56-76) -/

/-- The result of `extractMediaQueries`. -/
structure MediaSplit where
  mediaCss : Str
  nonMediaCss : Str
  deriving DecidableEq, Repr

/-- The `split-media` plugin run over a tree: every at-rule named `media` is printed, followed
by a newline, onto `mediaRules` and removed; the second component is the tree that is left. -/
def splitMedia (toString : Css → Str) : Css → Str × Css
  | .nil => ([], .nil)
  | .decl t rest => ((splitMedia toString rest).1, .decl t (splitMedia toString rest).2)
  | .rule sel body rest =>
    ((splitMedia toString body).1 ++ (splitMedia toString rest).1,
      .rule sel (splitMedia toString body).2 (splitMedia toString rest).2)
  | .atRule n p body rest =>
    if n = "media".toList then
      (toString (.atRule n p body .nil) ++ ['\n'] ++ (splitMedia toString rest).1,
        (splitMedia toString rest).2)
    else
      ((splitMedia toString body).1 ++ (splitMedia toString rest).1,
        .atRule n p (splitMedia toString body).2 (splitMedia toString rest).2)
  | .atRuleNoBody n p rest =>
    if n = "media".toList then
      (toString (.atRuleNoBody n p .nil) ++ ['\n'] ++ (splitMedia toString rest).1,
        (splitMedia toString rest).2)
    else ((splitMedia toString rest).1, .atRuleNoBody n p (splitMedia toString rest).2)

/-- `extractMediaQueries(css)`. -/
def extractMediaQueries (postcss : PostCss) (css : Str) : MediaSplit :=
  ⟨(splitMedia postcss.stringify (postcss.safeParse css)).1,
    postcss.stringify (splitMedia postcss.stringify (postcss.safeParse css)).2⟩

/-! ## Duplicate removal (`src/utils/removeDuplicateCss.js`) -/

/-- `removeDuplicateCss(css)`: `processor` is `postcss([discardDuplicates]).process`, whose
failure the `catch` turns into the input text. -/
def removeDuplicateCss (processor : Str → Except Error Str) (css : Str) : Str :=
  match processor css with
  | .ok result => result
  | .error _ => css

/-! ## The safelist policy (lines 137-149) -/

/-- The `safelist` option handed to PurgeCSS; `deep` and `greedy` are absent in the flat
strategy. -/
structure PurgeSafelist where
  standard : List Str
  deep : Option (List RegExp)
  greedy : Option (List RegExp)
  deriving DecidableEq, Repr

/-- The source of the pattern of line 139. -/
def childPatternSource (sel : Str) : Str :=
  sel ++ "(\\s|>|$)".toList

/-- The group `(\s|>|$)` as the reader builds it. -/
def followGroup : Re :=
  .alt (.seq (.cls .space) .eps) (.alt (.seq (.chr '>') .eps) (.seq .eol .eps))

/-- The pattern the reader builds from the source of line 139 when `sel` is plain text. -/
def childPatternRe (sel : Str) : Re :=
  seqOf (sel.map Re.chr ++ [followGroup])

/-- The callback of the `map` of line 139. -/
def childPattern (sel : Str) : Except Error RegExp :=
  RegExp.new (childPatternSource sel)

/-- `Array.prototype.map` with a callback that may throw. -/
def mapExcept {α β : Type} (f : α → Except Error β) : List α → Except Error (List β)
  | [] => .ok []
  | x :: xs =>
    match f x with
    | .error e => .error e
    | .ok y =>
      match mapExcept f xs with
      | .ok ys => .ok (y :: ys)
      | .error e => .error e

/-- The `purgeSafelist` of lines 137-149. -/
def buildPurgeSafelist (safelist complexSelectors : List Str) (preserveChildren : Bool) :
    Except Error PurgeSafelist :=
  if preserveChildren then
    match mapExcept childPattern complexSelectors with
    | .ok childPatterns =>
      .ok ⟨safelist ++ complexSelectors, some childPatterns, some childPatterns⟩
    | .error e => .error e
  else .ok ⟨safelist ++ complexSelectors, none, none⟩

/-! ## `reduceUnusedCss` (lines 79-178) -/

/-- The collaborators of `reduceUnusedCss`. -/
structure Collaborators where
  postcss : PostCss
  /-- `new PurgeCSS().purge` on one content source, a raw stylesheet and a safelist: the `css`
  of its first result. -/
  purge : Str → Str → PurgeSafelist → Except Error Str
  /-- `postcss([discardDuplicates]).process`. -/
  discardDuplicates : Str → Except Error Str
  /-- The `RegExp` constructor the corrective pass calls at line 27. -/
  regExp : RegExpConstructor

/-- Lines 134-149: the policy handed to both PurgeCSS runs. -/
def purgeSafelistOf (fullCss : Str) (safelist : List Str) (preserveChildren : Bool) :
    Except Error PurgeSafelist :=
  buildPurgeSafelist safelist (detectComplexSelectors fullCss) preserveChildren

/-- Lines 167-177: merge of the two purge results, duplicate removal, the media text, and the
corrective pass of the flat strategy. -/
def mergeResults (env : Collaborators) (safelist : List Str) (preserveChildren : Bool)
    (purgeHtml purgeJs mediaCss : Str) : Except Error Str :=
  if preserveChildren then
    .ok (removeDuplicateCss env.discardDuplicates (purgeHtml ++ ['\n'] ++ purgeJs) ++
      ['\n'] ++ mediaCss)
  else
    match env.postcss.parse (removeDuplicateCss env.discardDuplicates
        (purgeHtml ++ ['\n'] ++ purgeJs) ++ ['\n'] ++ mediaCss) with
    | .error e => .error e
    | .ok root =>
      match removeChildSelectorsPlugin env.regExp safelist root with
      | .error e => .error e
      | .ok root2 => .ok (env.postcss.stringify root2)

/-- `reduceUnusedCss(url, safelist, preserveChildren)` from line 132 on: `htmlContent`,
`fullCss` and `fullJs` are what the browser session of lines 80-130 has fetched. -/
def reduceUnusedCss (env : Collaborators) (htmlContent fullCss fullJs : Str)
    (safelist : List Str) (preserveChildren : Bool) : Except Error Str :=
  match purgeSafelistOf fullCss safelist preserveChildren with
  | .error e => .error e
  | .ok purgeSafelist =>
    match env.purge htmlContent (extractMediaQueries env.postcss fullCss).nonMediaCss
        purgeSafelist with
    | .error e => .error e
    | .ok purgeHtml =>
      match env.purge fullJs (extractMediaQueries env.postcss fullCss).nonMediaCss
          purgeSafelist with
      | .error e => .error e
      | .ok purgeJs =>
        mergeResults env safelist preserveChildren purgeHtml purgeJs
          (extractMediaQueries env.postcss fullCss).mediaCss

/-! ## A reference reader and printer

A small instance of the postcss collaborator, used to run the pipeline on concrete texts.  It
reads the brace structure of a stylesheet (blocks, statements ended by `;`) and prints it back
without the whitespace between nodes. -/

/-- The whitespace the reader skips between nodes. -/
def isCssSpace (c : Char) : Bool :=
  c == ' ' || c == '\n' || c == '\t' || c == '\r' || c.toNat == 0x0C

/-- The text up to the next `\x7b`, `;` or `\x7d`, and what follows it. -/
def readPrelude : Str → Str × Str
  | [] => ([], [])
  | c :: cs =>
    if c = '\x7b' ∨ c = ';' ∨ c = '\x7d' then ([], c :: cs)
    else (c :: (readPrelude cs).1, (readPrelude cs).2)

/-- The text without its trailing whitespace. -/
def trimEnd (s : Str) : Str :=
  (s.reverse.dropWhile isCssSpace).reverse

/-- The name of an at-rule, from the text after `@`. -/
def atRuleName (s : Str) : Str :=
  s.takeWhile (fun c => !isCssSpace c && c != '(')

/-- The parameters of an at-rule, from the text after `@`. -/
def atRuleParams (s : Str) : Str :=
  trimEnd ((s.dropWhile (fun c => !isCssSpace c && c != '(')).dropWhile isCssSpace)

/-- The node of a block with the given prelude. -/
def blockNode (prelude : Str) (body rest : Css) : Css :=
  match prelude with
  | '@' :: s => .atRule (atRuleName s) (atRuleParams s) body rest
  | _ => .rule prelude body rest

/-- The node of a statement without a block. -/
def statementNode (prelude : Str) (terminated : Bool) (rest : Css) : Css :=
  match prelude with
  | '@' :: s => .atRuleNoBody (atRuleName s) (atRuleParams s) rest
  | _ => .decl (if terminated then prelude ++ [';'] else prelude) rest

/-- The nodes of a block (or of the whole text, at depth 0) and the text after the block.  The
counter bounds the nesting of the calls; the length of the text plus one is enough.  The lenient
reader closes the blocks left open at the end and skips a stray closing brace. -/
def readNodes (lenient : Bool) : Nat → Nat → Str → Except Error (Css × Str)
  | 0, _, _ => .error .malformedCss
  | fuel + 1, depth, s =>
    match s.dropWhile isCssSpace with
    | [] => if depth = 0 ∨ lenient = true then .ok (.nil, []) else .error .malformedCss
    | c :: cs =>
      if c = '\x7d' then
        if 0 < depth then .ok (.nil, cs)
        else if lenient then readNodes lenient fuel 0 cs
        else .error .malformedCss
      else
        match (readPrelude (c :: cs)).2 with
        | [] =>
          match readNodes lenient fuel depth [] with
          | .ok (rest, after) =>
            .ok (statementNode (trimEnd (readPrelude (c :: cs)).1) false rest, after)
          | .error e => .error e
        | d :: ds =>
          if d = '\x7b' then
            match readNodes lenient fuel (depth + 1) ds with
            | .error e => .error e
            | .ok (body, afterBody) =>
              match readNodes lenient fuel depth afterBody with
              | .ok (rest, after) =>
                .ok (blockNode (trimEnd (readPrelude (c :: cs)).1) body rest, after)
              | .error e => .error e
          else if d = ';' then
            match readNodes lenient fuel depth ds with
            | .ok (rest, after) =>
              .ok (statementNode (trimEnd (readPrelude (c :: cs)).1) true rest, after)
            | .error e => .error e
          else
            match readNodes lenient fuel depth (d :: ds) with
            | .ok (rest, after) =>
              .ok (statementNode (trimEnd (readPrelude (c :: cs)).1) false rest, after)
            | .error e => .error e

/-- The printer of the reference instance. -/
def printCss : Css → Str
  | .nil => []
  | .decl t rest => t ++ printCss rest
  | .rule sel body rest => sel ++ ['\x7b'] ++ printCss body ++ ['\x7d'] ++ printCss rest
  | .atRule n p body rest =>
    '@' :: n ++ (if p = [] then [] else ' ' :: p) ++ ['\x7b'] ++ printCss body ++ ['\x7d'] ++
      printCss rest
  | .atRuleNoBody n p rest =>
    '@' :: n ++ (if p = [] then [] else ' ' :: p) ++ [';'] ++ printCss rest

/-- The reference instance of the postcss collaborator. -/
def referencePostCss : PostCss where
  parse := fun css =>
    match readNodes false (css.length + 1) 0 css with
    | .ok (root, _) => .ok root
    | .error e => .error e
  safeParse := fun css =>
    match readNodes true (css.length + 1) 0 css with
    | .ok (root, _) => root
    | .error _ => .nil
  stringify := printCss

/-- Collaborators for running the pipeline on concrete texts: the reference postcss instance,
a PurgeCSS that keeps every rule, a duplicate remover that finds none, the embedded pattern
reader. -/
def keepAllCollaborators : Collaborators where
  postcss := referencePostCss
  purge := fun _ css _ => .ok css
  discardDuplicates := fun css => .ok css
  regExp := referenceRegExp

/-! # Properties -/

/-! ## Strings and the matcher -/

theorem startsWith_iff (t p : Str) : startsWith t p = true ↔ ∃ post, t = p ++ post := by
  induction p generalizing t with
  | nil => cases t <;> simp [startsWith]
  | cons c p ih =>
    cases t with
    | nil => simp [startsWith]
    | cons x t =>
      simp only [startsWith, Bool.and_eq_true, beq_iff_eq, ih, List.cons_append, List.cons.injEq]
      constructor
      · rintro ⟨rfl, post, rfl⟩
        exact ⟨post, rfl, rfl⟩
      · rintro ⟨post, rfl, rfl⟩
        exact ⟨rfl, post, rfl⟩

theorem mem_of_startsWith {t p : Str} (h : startsWith t p = true) {c : Char} (hc : c ∈ p) :
    c ∈ t := by
  obtain ⟨post, rfl⟩ := (startsWith_iff t p).1 h
  exact List.mem_append_left _ hc

theorem mem_m_seqOf_chr (l : Str) (tail : List Re) (s r : Str) :
    r ∈ (seqOf (l.map Re.chr ++ tail)).m s ↔ ∃ post, s = l ++ post ∧ r ∈ (seqOf tail).m post := by
  induction l generalizing s with
  | nil => simp
  | cons c l ih =>
    cases s with
    | nil => simp [seqOf, Re.m]
    | cons x xs =>
      by_cases hx : x = c
      · subst hx
        simp [seqOf, Re.m, ih]
      · have hx2 : ¬ c = x := fun h => hx h.symm
        simp [seqOf, Re.m, hx, hx2]

theorem mem_m_lit (k s r : Str) : r ∈ (Re.lit k).m s ↔ s = k ++ r := by
  have h := mem_m_seqOf_chr k [] s r
  simp only [List.append_nil] at h
  rw [Re.lit, h]
  constructor
  · rintro ⟨post, rfl, hr⟩
    simp [seqOf, Re.m] at hr
    rw [hr]
  · rintro rfl
    exact ⟨r, rfl, by simp [seqOf, Re.m]⟩

theorem search_iff (re : Re) (t : Str) :
    re.search t = true ↔ ∃ pre post, t = pre ++ post ∧ re.matchesAt post = true := by
  induction t with
  | nil =>
    simp only [Re.search]
    constructor
    · intro h
      exact ⟨[], [], rfl, h⟩
    · rintro ⟨pre, post, h, hm⟩
      have hp : post = [] := (List.append_eq_nil.1 h.symm).2
      rw [hp] at hm
      exact hm
  | cons c cs ih =>
    simp only [Re.search, Bool.or_eq_true, ih]
    constructor
    · rintro (h | ⟨pre, post, rfl, hm⟩)
      · exact ⟨[], c :: cs, rfl, h⟩
      · exact ⟨c :: pre, post, rfl, hm⟩
    · rintro ⟨pre, post, h, hm⟩
      cases pre with
      | nil =>
        left
        simp only [List.nil_append] at h
        rw [h]
        exact hm
      | cons x pre =>
        right
        simp only [List.cons_append, List.cons.injEq] at h
        exact ⟨pre, post, h.2, hm⟩

theorem matchesAt_iff (re : Re) (s : Str) : re.matchesAt s = true ↔ ∃ r, r ∈ re.m s := by
  unfold Re.matchesAt
  cases h : re.m s with
  | nil => simp
  | cons a l => simp

/-! ## The safelist policy -/

theorem followGroup_matchesAt (post : Str) :
    (∃ r, r ∈ (seqOf [followGroup]).m post) ↔
      (post = [] ∨ ∃ c rest, post = c :: rest ∧ (isJsSpace c = true ∨ c = '>')) := by
  cases post with
  | nil => simp [seqOf, followGroup, Re.m]
  | cons x xs =>
    by_cases h1 : isJsSpace x = true
    · simp [seqOf, followGroup, Re.m, CharClass.test, h1]
    · by_cases h2 : x = '>'
      · simp [seqOf, followGroup, Re.m, CharClass.test, h2]
      · simp [seqOf, followGroup, Re.m, CharClass.test, h1, h2]

theorem childPatternRe_search (f t : Str) :
    (childPatternRe f).search t = true ↔
      ∃ pre post, t = pre ++ f ++ post ∧
        (post = [] ∨ ∃ c rest, post = c :: rest ∧ (isJsSpace c = true ∨ c = '>')) := by
  rw [search_iff]
  constructor
  · rintro ⟨pre, s, rfl, hm⟩
    obtain ⟨r, hr⟩ := (matchesAt_iff _ _).1 hm
    obtain ⟨post, rfl, hr2⟩ := (mem_m_seqOf_chr f [followGroup] s r).1 hr
    exact ⟨pre, post, by simp, (followGroup_matchesAt post).1 ⟨r, hr2⟩⟩
  · rintro ⟨pre, post, rfl, hpost⟩
    obtain ⟨r, hr⟩ := (followGroup_matchesAt post).2 hpost
    refine ⟨pre, f ++ post, by simp, (matchesAt_iff _ _).2 ⟨r, ?_⟩⟩
    exact (mem_m_seqOf_chr f [followGroup] (f ++ post) r).2 ⟨post, rfl, hr⟩

set_option maxRecDepth 100000 in
theorem childPattern_recognised :
    ∀ f ∈ recognisedFragments, childPattern f = .ok ⟨childPatternSource f, childPatternRe f⟩ := by
  decide

theorem mapExcept_ok {α β : Type} (f : α → Except Error β) (xs : List α)
    (h : ∀ x ∈ xs, ∃ y, f x = .ok y) :
    ∃ ys, mapExcept f xs = .ok ys ∧ List.Forall₂ (fun x y => f x = .ok y) xs ys := by
  induction xs with
  | nil => exact ⟨[], rfl, List.Forall₂.nil⟩
  | cons x xs ih =>
    obtain ⟨y, hy⟩ := h x (List.mem_cons_self _ _)
    obtain ⟨ys, hys, hall⟩ := ih (fun z hz => h z (List.mem_cons_of_mem _ hz))
    exact ⟨y :: ys, by simp [mapExcept, hy, hys], List.Forall₂.cons hy hall⟩

theorem buildPurgeSafelist_ok (safelist fragments : List Str)
    (hf : ∀ f ∈ fragments, f ∈ recognisedFragments) (preserveChildren : Bool) :
    ∃ p, buildPurgeSafelist safelist fragments preserveChildren = .ok p ∧
      p.standard = safelist ++ fragments ∧
      (preserveChildren = true → ∃ pats, p.deep = some pats ∧ p.greedy = some pats ∧
        List.Forall₂ (fun f r => childPattern f = .ok r) fragments pats) ∧
      (preserveChildren = false → p.deep = none ∧ p.greedy = none) := by
  obtain ⟨pats, hpats, hall⟩ := mapExcept_ok childPattern fragments
    (fun f h => ⟨_, childPattern_recognised f (hf f h)⟩)
  cases preserveChildren with
  | true =>
    refine ⟨⟨safelist ++ fragments, some pats, some pats⟩, ?_, rfl, ?_, ?_⟩
    · simp [buildPurgeSafelist, hpats]
    · intro _
      exact ⟨pats, rfl, rfl, hall⟩
    · intro h
      cases h
  | false =>
    refine ⟨⟨safelist ++ fragments, none, none⟩, ?_, rfl, ?_, ?_⟩
    · simp [buildPurgeSafelist]
    · intro h
      cases h
    · intro _
      exact ⟨rfl, rfl⟩

/-- C6: the safelist policy built from a caller safelist and a sequence of classifier
fragments has `standard` equal to the caller names followed by the fragments (so it holds every
caller name, every fragment and nothing else); with `preserveChildren` its `deep` and `greedy`
lists are one and the same list, with exactly one pattern per fragment, in fragment order;
without `preserveChildren` it has neither list. -/
theorem buildPurgeSafelist_policy (safelist fragments : List Str)
    (hf : ∀ f ∈ fragments, f ∈ recognisedFragments) (preserveChildren : Bool) :
    ∃ p, buildPurgeSafelist safelist fragments preserveChildren = .ok p ∧
      p.standard = safelist ++ fragments ∧
      (∀ x, x ∈ p.standard ↔ x ∈ safelist ∨ x ∈ fragments) ∧
      (preserveChildren = true → ∃ pats, p.deep = some pats ∧ p.greedy = some pats ∧
        List.Forall₂ (fun f r => childPattern f = .ok r) fragments pats) ∧
      (preserveChildren = false → p.deep = none ∧ p.greedy = none) := by
  obtain ⟨p, hp, hstd, hT, hF⟩ := buildPurgeSafelist_ok safelist fragments hf preserveChildren
  exact ⟨p, hp, hstd, by simp [hstd], hT, hF⟩

/-- C9, as amended: for a classifier fragment `f`, the pattern of line 139 is built, and it
matches a text exactly when the text holds an occurrence of `f` that is followed by a whitespace
character or by `>`, or that ends the text. -/
theorem childPattern_matches_iff (f : Str) (hf : f ∈ recognisedFragments) (t : Str) :
    ∃ p, childPattern f = .ok p ∧
      (p.test t = true ↔
        ∃ pre post, t = pre ++ f ++ post ∧
          (post = [] ∨ ∃ c rest, post = c :: rest ∧ (isJsSpace c = true ∨ c = '>'))) := by
  refine ⟨_, childPattern_recognised f hf, ?_⟩
  exact childPatternRe_search f t

/-- C6, an instance: the policy of the caller safelist `btn` and the fragments `:hover`,
`:focus`, with `preserveChildren`. -/
theorem buildPurgeSafelist_policy_witness :
    (∀ f ∈ [":hover".toList, ":focus".toList], f ∈ recognisedFragments) ∧
    ∃ p, buildPurgeSafelist ["btn".toList] [":hover".toList, ":focus".toList] true = .ok p ∧
      p.standard = ["btn".toList] ++ [":hover".toList, ":focus".toList] ∧
      (∀ x, x ∈ p.standard ↔ x ∈ ["btn".toList] ∨ x ∈ [":hover".toList, ":focus".toList]) ∧
      (true = true → ∃ pats, p.deep = some pats ∧ p.greedy = some pats ∧
        List.Forall₂ (fun f r => childPattern f = .ok r) [":hover".toList, ":focus".toList]
          pats) ∧
      (true = false → p.deep = none ∧ p.greedy = none) :=
  ⟨by decide, buildPurgeSafelist_policy _ _ (by decide) true⟩

/-- C9, an instance: the pattern of `:hover` on the selector `.btn:hover > span`. -/
theorem childPattern_matches_iff_witness :
    ":hover".toList ∈ recognisedFragments ∧
    ∃ p, childPattern ":hover".toList = .ok p ∧
      (p.test ".btn:hover > span".toList = true ↔
        ∃ pre post, ".btn:hover > span".toList = pre ++ ":hover".toList ++ post ∧
          (post = [] ∨ ∃ c rest, post = c :: rest ∧ (isJsSpace c = true ∨ c = '>'))) :=
  ⟨by decide, childPattern_matches_iff _ (by decide) _⟩

set_option maxRecDepth 100000 in
/-- C9, as stated, fails: the pattern of `:hover` matches the selector `.btn:hover`, in which
no occurrence of `:hover` (indeed no character at all) is followed by whitespace or `>`. -/
theorem childPattern_end_of_text_counterexample :
    ":hover".toList ∈ recognisedFragments ∧
    (childPattern ":hover".toList).map (fun p => p.test ".btn:hover".toList) = .ok true ∧
    ¬ ∃ pre c rest, ".btn:hover".toList = pre ++ ":hover".toList ++ c :: rest ∧
        (isJsSpace c = true ∨ c = '>') := by
  refine ⟨by decide, by decide, ?_⟩
  rintro ⟨pre, c, rest, h, hc⟩
  have hmem : c ∈ ".btn:hover".toList := by
    rw [h]
    simp
  have hall : ∀ x ∈ ".btn:hover".toList, ¬ (isJsSpace x = true ∨ x = '>') := by decide
  exact hall c hmem hc

/-! ## The classifier -/

theorem mem_m_altOf (rs : List Re) (hne : rs ≠ []) (s r : Str) :
    r ∈ (altOf rs).m s ↔ ∃ re ∈ rs, r ∈ re.m s := by
  induction rs with
  | nil => exact absurd rfl hne
  | cons a rest ih =>
    cases rest with
    | nil => simp [altOf]
    | cons b rest =>
      have h := ih (List.cons_ne_nil _ _)
      simp only [altOf, Re.m, List.mem_append, h]
      simp

theorem mem_m_complexSelectorsRegex (s r : Str) :
    r ∈ complexSelectorsRegex.m s ↔ ∃ k ∈ complexSelectorKeywords, s = ':' :: k ++ r := by
  have h1 := mem_m_seqOf_chr [':'] [altOf (complexSelectorKeywords.map Re.lit)] s r
  have h2 : seqOf ([':'].map Re.chr ++ [altOf (complexSelectorKeywords.map Re.lit)]) =
      complexSelectorsRegex := rfl
  rw [h2] at h1
  rw [h1]
  have hne : complexSelectorKeywords.map Re.lit ≠ [] := by decide
  constructor
  · rintro ⟨post, rfl, hr⟩
    simp only [seqOf, Re.m, List.mem_flatMap, List.mem_singleton] at hr
    obtain ⟨r2, hr2, rfl⟩ := hr
    obtain ⟨re, hre, hm⟩ := (mem_m_altOf _ hne post r).1 hr2
    obtain ⟨k, hk, rfl⟩ := List.mem_map.1 hre
    exact ⟨k, hk, by rw [(mem_m_lit k post r).1 hm]; rfl⟩
  · rintro ⟨k, hk, rfl⟩
    refine ⟨k ++ r, rfl, ?_⟩
    simp only [seqOf, Re.m, List.mem_flatMap, List.mem_singleton]
    refine ⟨r, ?_, rfl⟩
    exact (mem_m_altOf _ hne (k ++ r) r).2
      ⟨Re.lit k, List.mem_map.2 ⟨k, hk, rfl⟩, (mem_m_lit k (k ++ r) r).2 rfl⟩

theorem execAll_pos_le (re : Re) (s : Str) :
    ∀ pos skip, ∀ p ∈ re.execAll pos skip s, pos ≤ p.1 := by
  induction s with
  | nil =>
    intro pos skip p hp
    simp only [Re.execAll] at hp
    split at hp
    · simp only [List.mem_singleton] at hp
      rw [hp]
    · cases hp
  | cons c cs ih =>
    intro pos skip p hp
    cases skip with
    | succ n =>
      simp only [Re.execAll] at hp
      exact Nat.le_of_succ_le (ih _ _ p hp)
    | zero =>
      simp only [Re.execAll] at hp
      split at hp
      · exact Nat.le_of_succ_le (ih _ _ p hp)
      · rcases List.mem_cons.1 hp with h | h
        · rw [h]
        · exact Nat.le_of_succ_le (ih _ _ p h)

theorem execAll_pairwise (re : Re) (s : Str) :
    ∀ pos skip, (re.execAll pos skip s).Pairwise (fun p q => p.1 < q.1) := by
  induction s with
  | nil =>
    intro pos skip
    simp only [Re.execAll]
    split <;> simp
  | cons c cs ih =>
    intro pos skip
    cases skip with
    | succ n =>
      simp only [Re.execAll]
      exact ih _ _
    | zero =>
      simp only [Re.execAll]
      split
      · exact ih _ _
      · refine List.pairwise_cons.2 ⟨?_, ih _ _⟩
        intro q hq
        exact execAll_pos_le re cs _ _ q hq

theorem execAll_texts (re : Re) (Q : Str → Prop)
    (hQ : ∀ s r, r ∈ re.m s → Q (s.take (s.length - r.length))) (s : Str) :
    ∀ pos skip, ∀ p ∈ re.execAll pos skip s, Q p.2 := by
  induction s with
  | nil =>
    intro pos skip p hp
    simp only [Re.execAll] at hp
    split at hp
    · rename_i h
      obtain ⟨r, hr⟩ := (matchesAt_iff re []).1 h.2
      have := hQ [] r hr
      simp only [List.mem_singleton] at hp
      rw [hp]
      simpa using this
    · cases hp
  | cons c cs ih =>
    intro pos skip p hp
    cases skip with
    | succ n =>
      simp only [Re.execAll] at hp
      exact ih _ _ p hp
    | zero =>
      simp only [Re.execAll] at hp
      split at hp
      · exact ih _ _ p hp
      · rename_i r tail hm
        rcases List.mem_cons.1 hp with h | h
        · rw [h]
          exact hQ (c :: cs) r (by rw [hm]; exact List.mem_cons_self _ _)
        · exact ih _ _ p h

theorem execAll_eq_nil (re : Re) (s : Str) (h : re.search s = false) :
    ∀ pos skip, re.execAll pos skip s = [] := by
  induction s with
  | nil =>
    intro pos skip
    simp only [Re.search] at h
    simp [Re.execAll, h]
  | cons c cs ih =>
    intro pos skip
    simp only [Re.search, Bool.or_eq_false_iff] at h
    cases skip with
    | succ n =>
      simp only [Re.execAll]
      exact ih h.2 _ _
    | zero =>
      have hm : re.m (c :: cs) = [] := by
        have h1 := h.1
        unfold Re.matchesAt at h1
        cases hr : re.m (c :: cs) with
        | nil => rfl
        | cons a l => simp [hr] at h1
      simp only [Re.execAll, hm]
      exact ih h.2 _ _

theorem detectComplexSelectors_eq (css : Str) :
    detectComplexSelectors css =
      ((complexSelectorsRegex.execAll 0 0 css).map Prod.snd).foldl pushUnique [] := by
  unfold detectComplexSelectors strMatchGlobal
  split
  · rename_i h
    split at h
    · rename_i h2
      rw [h2]
      rfl
    · cases h
  · rename_i found h
    split at h
    · cases h
    · cases h
      rfl

theorem includes_iff (xs : List Str) (x : Str) : includes xs x = true ↔ x ∈ xs := by
  unfold includes
  simp only [List.any_eq_true, beq_iff_eq]
  constructor
  · rintro ⟨y, hy, rfl⟩
    exact hy
  · intro h
    exact ⟨x, h, rfl⟩

theorem firstIndexIn_left (D T : List (Nat × Str)) (n : Nat) (a : Str)
    (ha : a ∈ D.map Prod.snd) : ∃ p ∈ D, p.2 = a ∧ firstIndexIn (D ++ T) n a = p.1 := by
  unfold firstIndexIn
  rw [List.find?_append]
  cases h : D.find? (fun p => p.2 == a) with
  | none =>
    exfalso
    obtain ⟨p, hp, rfl⟩ := List.mem_map.1 ha
    have := (List.find?_eq_none.1 h) p hp
    simp at this
  | some p =>
    refine ⟨p, List.mem_of_find?_eq_some h, ?_, rfl⟩
    have := List.find?_some h
    simpa using this

theorem firstIndexIn_here (D T : List (Nat × Str)) (n i : Nat) (x : Str)
    (hx : x ∉ D.map Prod.snd) : firstIndexIn (D ++ (i, x) :: T) n x = i := by
  unfold firstIndexIn
  rw [List.find?_append]
  have h : D.find? (fun p => p.2 == x) = none := by
    rw [List.find?_eq_none]
    intro p hp hpx
    exact hx (List.mem_map.2 ⟨p, hp, by simpa using hpx⟩)
  simp [h, List.find?_cons]

theorem foldl_pushUnique_spec (n : Nat) (L : List (Nat × Str))
    (hL : L.Pairwise (fun p q => p.1 < q.1)) :
    ∀ (T D : List (Nat × Str)) (acc : List Str), L = D ++ T → acc.Nodup →
      (∀ x, x ∈ acc ↔ x ∈ D.map Prod.snd) →
      acc.Pairwise (fun a b => firstIndexIn L n a < firstIndexIn L n b) →
      ((T.map Prod.snd).foldl pushUnique acc).Nodup ∧
      (∀ x, x ∈ (T.map Prod.snd).foldl pushUnique acc ↔ x ∈ L.map Prod.snd) ∧
      ((T.map Prod.snd).foldl pushUnique acc).Pairwise
        (fun a b => firstIndexIn L n a < firstIndexIn L n b) := by
  intro T
  induction T with
  | nil =>
    intro D acc hDT hnd hmem hpw
    simp only [List.append_nil] at hDT
    subst hDT
    exact ⟨hnd, hmem, hpw⟩
  | cons q T ih =>
    intro D acc hDT hnd hmem hpw
    obtain ⟨i, x⟩ := q
    have hDT2 : L = (D ++ [(i, x)]) ++ T := by simp [hDT]
    simp only [List.map_cons, List.foldl_cons]
    by_cases hx : x ∈ acc
    · have hpu : pushUnique acc x = acc := by
        simp [pushUnique, (includes_iff acc x).2 hx]
      rw [hpu]
      refine ih (D ++ [(i, x)]) acc hDT2 hnd ?_ hpw
      intro y
      rw [hmem y]
      simp only [List.map_append, List.map_cons, List.map_nil, List.mem_append,
        List.mem_singleton]
      constructor
      · intro h
        exact Or.inl h
      · rintro (h | rfl)
        · exact h
        · exact (hmem y).1 hx
    · have hinc : includes acc x = false := by
        cases h : includes acc x with
        | false => rfl
        | true => exact absurd ((includes_iff acc x).1 h) hx
      have hpu : pushUnique acc x = acc ++ [x] := by
        simp [pushUnique, hinc]
      rw [hpu]
      refine ih (D ++ [(i, x)]) (acc ++ [x]) hDT2 ?_ ?_ ?_
      · rw [List.nodup_append]
        refine ⟨hnd, List.nodup_singleton x, ?_⟩
        intro a ha hb
        rw [List.mem_singleton] at hb
        rw [hb] at ha
        exact hx ha
      · intro y
        simp only [List.map_append, List.map_cons, List.map_nil, List.mem_append,
          List.mem_singleton, hmem y]
      · rw [List.pairwise_append]
        refine ⟨hpw, List.pairwise_singleton _ _, ?_⟩
        intro a ha b hb
        rw [List.mem_singleton] at hb
        subst hb
        have haD : a ∈ D.map Prod.snd := (hmem a).1 ha
        have hxD : b ∉ D.map Prod.snd := fun h => hx ((hmem b).2 h)
        obtain ⟨p, hp, _, hfa⟩ := firstIndexIn_left D ((i, b) :: T) n a haD
        have hfx := firstIndexIn_here D T n i b hxD
        rw [hDT, hfa, hfx]
        rw [hDT] at hL
        exact (List.pairwise_append.1 hL).2.2 p hp (i, b) (List.mem_cons_self _ _)

theorem detectComplexSelectors_mem (css x : Str) :
    x ∈ detectComplexSelectors css ↔
      x ∈ (complexSelectorsRegex.execAll 0 0 css).map Prod.snd := by
  rw [detectComplexSelectors_eq]
  have h := foldl_pushUnique_spec css.length _ (execAll_pairwise complexSelectorsRegex css 0 0)
    (complexSelectorsRegex.execAll 0 0 css) [] [] rfl List.nodup_nil (by simp) List.Pairwise.nil
  exact h.2.1 x

theorem execAll_recognised (css : Str) :
    ∀ p ∈ complexSelectorsRegex.execAll 0 0 css,
      ∃ k ∈ complexSelectorKeywords, p.2 = ':' :: k := by
  apply execAll_texts complexSelectorsRegex
    (fun t => ∃ k ∈ complexSelectorKeywords, t = ':' :: k)
  intro s r hr
  obtain ⟨k, hk, rfl⟩ := (mem_m_complexSelectorsRegex s r).1 hr
  refine ⟨k, hk, ?_⟩
  have hlen : (':' :: k ++ r).length - r.length = (':' :: k).length := by
    simp only [List.length_cons, List.length_append]
    omega
  rw [hlen]
  have : ':' :: k ++ r = (':' :: k) ++ r := rfl
  rw [this, List.take_left]

theorem detectComplexSelectors_recognised (css : Str) :
    ∀ x ∈ detectComplexSelectors css, x ∈ recognisedFragments := by
  intro x hx
  obtain ⟨p, hp, rfl⟩ := List.mem_map.1 ((detectComplexSelectors_mem css x).1 hx)
  obtain ⟨k, hk, hpk⟩ := execAll_recognised css p hp
  rw [hpk]
  exact List.mem_map.2 ⟨k, hk, rfl⟩

/-- C4: for every CSS text, the sequence `detectComplexSelectors` returns has no duplicates,
each of its elements is `:` followed by one of the thirteen keywords and is the text of a match
of the pattern, its elements come in the order of the start index of their first match in the
text, and it is empty when the pattern matches nowhere in the text. -/
theorem detectComplexSelectors_spec (css : Str) :
    (detectComplexSelectors css).Nodup ∧
    (∀ x ∈ detectComplexSelectors css, ∃ k ∈ complexSelectorKeywords, x = ':' :: k) ∧
    (∀ x ∈ detectComplexSelectors css,
      (firstMatchIndex css x, x) ∈ complexSelectorsRegex.execAll 0 0 css) ∧
    (detectComplexSelectors css).Pairwise
      (fun a b => firstMatchIndex css a < firstMatchIndex css b) ∧
    (complexSelectorsRegex.search css = false → detectComplexSelectors css = []) := by
  have h := foldl_pushUnique_spec css.length _ (execAll_pairwise complexSelectorsRegex css 0 0)
    (complexSelectorsRegex.execAll 0 0 css) [] [] rfl List.nodup_nil (by simp) List.Pairwise.nil
  simp only [List.nil_append] at h
  rw [← detectComplexSelectors_eq] at h
  refine ⟨h.1, ?_, ?_, h.2.2, ?_⟩
  · intro x hx
    obtain ⟨k, hk, rfl⟩ := List.mem_map.1 (detectComplexSelectors_recognised css x hx)
    exact ⟨k, hk, rfl⟩
  · intro x hx
    have hx2 := (h.2.1 x).1 hx
    obtain ⟨p, hp, hpx, hfi⟩ :=
      firstIndexIn_left (complexSelectorsRegex.execAll 0 0 css) [] css.length x hx2
    simp only [List.append_nil] at hfi
    unfold firstMatchIndex
    rw [hfi, ← hpx]
    exact hp
  · intro hs
    rw [detectComplexSelectors_eq, execAll_eq_nil _ _ hs]
    rfl

set_option maxRecDepth 100000 in
/-- C4, an instance: a text without any match of the pattern. -/
theorem detectComplexSelectors_spec_witness :
    complexSelectorsRegex.search ".btn\x7bcolor:red\x7d".toList = false ∧
    detectComplexSelectors ".btn\x7bcolor:red\x7d".toList = [] :=
  ⟨by decide, (detectComplexSelectors_spec _).2.2.2.2 (by decide)⟩

theorem m_altOf_eq (rs : List Re) (hne : rs ≠ []) (s : Str) :
    (altOf rs).m s = rs.flatMap (fun re => re.m s) := by
  induction rs with
  | nil => exact absurd rfl hne
  | cons a rest ih =>
    cases rest with
    | nil => simp [altOf]
    | cons b rest =>
      have h := ih (List.cons_ne_nil _ _)
      simp only [altOf, Re.m, h, List.flatMap_cons]

theorem m_lit_eq (k s : Str) :
    (Re.lit k).m s = if startsWith s k = true then [s.drop k.length] else [] := by
  induction k generalizing s with
  | nil => cases s <;> simp [Re.lit, seqOf, Re.m, startsWith]
  | cons c k ih =>
    cases s with
    | nil => simp [Re.lit, seqOf, Re.m, startsWith]
    | cons x xs =>
      have ih2 := ih xs
      unfold Re.lit at ih2
      by_cases hx : x = c
      · subst hx
        simp [Re.lit, seqOf, Re.m, startsWith, ih2]
      · simp [Re.lit, seqOf, Re.m, startsWith, hx]

theorem keywords_eq : complexSelectorKeywords =
    [['a','f','t','e','r'], ['b','e','f','o','r','e'], ['w','h','e','r','e'], ['i','s'],
     ['n','o','t'], ['h','a','s'], ['n','t','h','-','c','h','i','l','d'],
     ['n','t','h','-','o','f','-','t','y','p','e'], ['f','i','r','s','t','-','c','h','i','l','d'],
     ['l','a','s','t','-','c','h','i','l','d'],
     ['f','o','c','u','s','-','w','i','t','h','i','n'], ['f','o','c','u','s'],
     ['h','o','v','e','r']] := by decide

theorem flatMap_eps (l : List Str) : l.flatMap Re.eps.m = l := by
  induction l with
  | nil => rfl
  | cons x l ih => simp [List.flatMap_cons, Re.m, ih]

theorem m_colon_group (A : Re) (t : Str) :
    (Re.seq (.chr ':') (.seq A .eps)).m (':' :: t) = A.m t := by
  simp only [Re.m, if_true, List.flatMap_cons, List.flatMap_nil, List.append_nil]
  exact flatMap_eps _

theorem flatMap_map_lit (ks : List Str) (t : Str) :
    (ks.map Re.lit).flatMap (fun re => re.m t) =
      ks.flatMap (fun k => if startsWith t k = true then [t.drop k.length] else []) := by
  induction ks with
  | nil => rfl
  | cons k ks ih => simp only [List.map_cons, List.flatMap_cons, ih, m_lit_eq]

theorem m_complexSelectorsRegex_colon (t : Str) :
    complexSelectorsRegex.m (':' :: t) =
      complexSelectorKeywords.flatMap
        (fun k => if startsWith t k = true then [t.drop k.length] else []) := by
  have hne : complexSelectorKeywords.map Re.lit ≠ [] := by decide
  unfold complexSelectorsRegex
  rw [m_colon_group, m_altOf_eq _ hne, flatMap_map_lit]

theorem m_head_keyword (k : Str) (hk : k ∈ complexSelectorKeywords) (post : Str)
    (hfocus : k = "focus".toList → startsWith post "-within".toList = false) :
    (complexSelectorsRegex.m (':' :: (k ++ post))).head? = some post := by
  have hf : "focus".toList = ['f','o','c','u','s'] := rfl
  have hw : "-within".toList = ['-','w','i','t','h','i','n'] := rfl
  rw [hf, hw] at hfocus
  rw [m_complexSelectorsRegex_colon]
  rw [keywords_eq] at hk ⊢
  simp only [List.mem_cons, List.mem_singleton, List.not_mem_nil, or_false] at hk
  rcases hk with rfl | rfl | rfl | rfl | rfl | rfl | rfl | rfl | rfl | rfl | rfl | rfl | rfl
  all_goals first
    | (have h := hfocus rfl
       simp [startsWith, h])
    | simp [startsWith]

theorem keywords_no_colon : ∀ k ∈ complexSelectorKeywords, ∀ c ∈ k, c ≠ ':' := by
  decide

theorem execAll_succ_cons (re : Re) (pos n : Nat) (c : Char) (cs : Str) :
    re.execAll pos (n + 1) (c :: cs) = re.execAll (pos + 1) n cs := by
  simp only [Re.execAll]

theorem execAll_zero_cons_nil (re : Re) (pos : Nat) (c : Char) (cs : Str)
    (hm : re.m (c :: cs) = []) :
    re.execAll pos 0 (c :: cs) = re.execAll (pos + 1) 0 cs := by
  simp only [Re.execAll, hm]

theorem execAll_zero_cons_cons (re : Re) (pos : Nat) (c : Char) (cs r : Str) (tail : List Str)
    (hm : re.m (c :: cs) = r :: tail) :
    re.execAll pos 0 (c :: cs) =
      (pos, (c :: cs).take ((c :: cs).length - r.length)) ::
        re.execAll (pos + 1) ((c :: cs).length - r.length - 1) cs := by
  simp only [Re.execAll, hm]

theorem take_matched (k r : Str) :
    (':' :: (k ++ r)).take ((':' :: (k ++ r)).length - r.length) = ':' :: k := by
  have hlen : (':' :: (k ++ r)).length - r.length = (':' :: k).length := by
    simp only [List.length_cons, List.length_append]
    omega
  rw [hlen]
  exact List.take_left (':' :: k) r

theorem execAll_finds (k post : Str) (hk : k ∈ complexSelectorKeywords)
    (hfocus : k = "focus".toList → startsWith post "-within".toList = false) :
    ∀ pre pos skip, (∀ c ∈ (pre ++ ':' :: (k ++ post)).take skip, c ≠ ':') →
      ∃ i, (i, ':' :: k) ∈
        complexSelectorsRegex.execAll pos skip (pre ++ ':' :: (k ++ post)) := by
  intro pre
  induction pre with
  | nil =>
    intro pos skip hskip
    rw [List.nil_append] at hskip ⊢
    cases skip with
    | succ n =>
      exact absurd rfl (hskip ':' (by simp))
    | zero =>
      have hhead := m_head_keyword k hk post hfocus
      cases hm : complexSelectorsRegex.m (':' :: (k ++ post)) with
      | nil =>
        rw [hm] at hhead
        cases hhead
      | cons r tail =>
        rw [hm] at hhead
        simp only [List.head?_cons, Option.some.injEq] at hhead
        subst hhead
        refine ⟨pos, ?_⟩
        rw [execAll_zero_cons_cons _ _ _ _ _ _ hm, take_matched]
        exact List.mem_cons_self _ _
  | cons c pre ih =>
    intro pos skip hskip
    rw [List.cons_append] at hskip ⊢
    cases skip with
    | succ n =>
      rw [execAll_succ_cons]
      apply ih
      intro x hx
      exact hskip x (by rw [List.take_succ_cons]; exact List.mem_cons_of_mem _ hx)
    | zero =>
      cases hm : complexSelectorsRegex.m (c :: (pre ++ ':' :: (k ++ post))) with
      | nil =>
        rw [execAll_zero_cons_nil _ _ _ _ hm]
        exact ih _ _ (by simp)
      | cons r tail =>
        rw [execAll_zero_cons_cons _ _ _ _ _ _ hm]
        have hr : r ∈ complexSelectorsRegex.m (c :: (pre ++ ':' :: (k ++ post))) := by
          rw [hm]
          exact List.mem_cons_self _ _
        obtain ⟨k2, hk2, heq⟩ := (mem_m_complexSelectorsRegex _ r).1 hr
        rw [List.cons_append, List.cons.injEq] at heq
        obtain ⟨_, heq2⟩ := heq
        have hlen : (c :: (pre ++ ':' :: (k ++ post))).length - r.length - 1 = k2.length := by
          rw [heq2]
          simp only [List.length_cons, List.length_append]
          omega
        rw [hlen]
        obtain ⟨i, hi⟩ := ih (pos + 1) k2.length (by
          intro x hx
          rw [heq2, List.take_left] at hx
          exact keywords_no_colon k2 hk2 x hx)
        exact ⟨i, List.mem_cons_of_mem _ hi⟩

theorem finds_fragment (pre post k : Str) (hk : k ∈ complexSelectorKeywords)
    (hfocus : k = "focus".toList → startsWith post "-within".toList = false) :
    (':' :: k) ∈ detectComplexSelectors (pre ++ ':' :: k ++ post) := by
  rw [detectComplexSelectors_mem]
  obtain ⟨i, hi⟩ := execAll_finds k post hk hfocus pre 0 0 (by simp)
  have heq : pre ++ ':' :: k ++ post = pre ++ ':' :: (k ++ post) := by simp
  rw [heq]
  exact List.mem_map.2 ⟨(i, ':' :: k), hi, rfl⟩

/-- C5, as amended: for every CSS text and every keyword `k` of the thirteen, an occurrence of
`:k` anywhere in the text puts `:k` in the result of `detectComplexSelectors`, provided, for the
keyword `focus`, that the occurrence is not the beginning of `:focus-within`. -/
theorem detectComplexSelectors_finds (pre post k : Str) (hk : k ∈ complexSelectorKeywords)
    (hfocus : k = "focus".toList → startsWith post "-within".toList = false) :
    (':' :: k) ∈ detectComplexSelectors (pre ++ ':' :: k ++ post) :=
  finds_fragment pre post k hk hfocus

set_option maxRecDepth 100000 in
/-- C5, an instance: `:hover` inside the combinator selector `.btn:hover > span`. -/
theorem detectComplexSelectors_finds_witness :
    "hover".toList ∈ complexSelectorKeywords ∧
    ("hover".toList = "focus".toList →
      startsWith " > span\x7bcolor:red\x7d".toList "-within".toList = false) ∧
    (':' :: "hover".toList) ∈
      detectComplexSelectors
        (".btn".toList ++ ':' :: "hover".toList ++ " > span\x7bcolor:red\x7d".toList) :=
  ⟨by decide, by decide, detectComplexSelectors_finds _ _ _ (by decide) (by decide)⟩

set_option maxRecDepth 100000 in
/-- C5, as stated, fails: the text `.a:focus-within` followed by an empty block contains
`:focus`, and `focus` is one of the keywords, yet the result does not contain `:focus`. -/
theorem detectComplexSelectors_focus_within_counterexample :
    "focus".toList ∈ complexSelectorKeywords ∧
    ".a:focus-within\x7b\x7d".toList =
      ".a".toList ++ ':' :: "focus".toList ++ "-within\x7b\x7d".toList ∧
    detectComplexSelectors ".a:focus-within\x7b\x7d".toList = [":focus-within".toList] ∧
    (':' :: "focus".toList) ∉ detectComplexSelectors ".a:focus-within\x7b\x7d".toList := by
  decide

/-! ## The pipeline -/

theorem purgeSafelistOf_ok (fullCss : Str) (safelist : List Str) (preserveChildren : Bool) :
    ∃ p, purgeSafelistOf fullCss safelist preserveChildren = .ok p ∧
      p.standard = safelist ++ detectComplexSelectors fullCss := by
  obtain ⟨p, hp, hstd, _, _⟩ := buildPurgeSafelist_ok safelist (detectComplexSelectors fullCss)
    (detectComplexSelectors_recognised fullCss) preserveChildren
  exact ⟨p, hp, hstd⟩

/-- C10, as amended: in `reduceUnusedCss` the classifier is applied to the whole fetched CSS,
not to the non-media CSS of the partitioner: the policy is always built, its fragments are
exactly `detectComplexSelectors fullCss`, and it is the policy both PurgeCSS runs receive. -/
theorem reduceUnusedCss_classifies_fullCss (env : Collaborators)
    (htmlContent fullCss fullJs : Str) (safelist : List Str) (preserveChildren : Bool) :
    ∃ p, purgeSafelistOf fullCss safelist preserveChildren = .ok p ∧
      p.standard = safelist ++ detectComplexSelectors fullCss ∧
      reduceUnusedCss env htmlContent fullCss fullJs safelist preserveChildren =
        (match env.purge htmlContent (extractMediaQueries env.postcss fullCss).nonMediaCss p with
        | .error e => .error e
        | .ok purgeHtml =>
          match env.purge fullJs (extractMediaQueries env.postcss fullCss).nonMediaCss p with
          | .error e => .error e
          | .ok purgeJs =>
            mergeResults env safelist preserveChildren purgeHtml purgeJs
              (extractMediaQueries env.postcss fullCss).mediaCss) := by
  obtain ⟨p, hp, hstd⟩ := purgeSafelistOf_ok fullCss safelist preserveChildren
  refine ⟨p, hp, hstd, ?_⟩
  unfold reduceUnusedCss
  rw [hp]

set_option maxRecDepth 100000 in
/-- C10, as stated, fails: for the stylesheet that consists of one media block holding the rule
`.a:hover`, the partitioner puts the whole block in `mediaCss`, the classifier finds nothing in
the non-media CSS, and yet `:hover` enters the policy. -/
theorem classifier_sees_media_counterexample :
    (extractMediaQueries referencePostCss
        "@media (min-width:600px)\x7b.a:hover\x7bcolor:red\x7d\x7d\n".toList).mediaCss =
      "@media (min-width:600px)\x7b.a:hover\x7bcolor:red\x7d\x7d\n".toList ∧
    detectComplexSelectors (extractMediaQueries referencePostCss
        "@media (min-width:600px)\x7b.a:hover\x7bcolor:red\x7d\x7d\n".toList).nonMediaCss = [] ∧
    (purgeSafelistOf "@media (min-width:600px)\x7b.a:hover\x7bcolor:red\x7d\x7d\n".toList
        [] false) = .ok ⟨[":hover".toList], none, none⟩ := by
  decide

theorem mergeResults_preserveChildren (env : Collaborators) (safelist : List Str)
    (purgeHtml purgeJs mediaCss : Str) :
    mergeResults env safelist true purgeHtml purgeJs mediaCss =
      .ok (removeDuplicateCss env.discardDuplicates (purgeHtml ++ ['\n'] ++ purgeJs) ++
        ['\n'] ++ mediaCss) := by
  simp [mergeResults]

/-- C7: with `preserveChildren`, the merge step returns, for every pair of purge results `h`,
`j` and every media text `m`, exactly `dedupe(h + "\n" + j) + "\n" + m`, with no corrective
pass; and `reduceUnusedCss` builds its policy and returns that text for the results `h`, `j` of
its two PurgeCSS runs and the media text of its partitioner. -/
theorem reduceUnusedCss_preserveChildren (env : Collaborators)
    (htmlContent fullCss fullJs : Str) (safelist : List Str) :
    (∀ h j m, mergeResults env safelist true h j m =
      .ok (removeDuplicateCss env.discardDuplicates (h ++ ['\n'] ++ j) ++ ['\n'] ++ m)) ∧
    ∃ p, purgeSafelistOf fullCss safelist true = .ok p ∧
      ∀ h j,
        env.purge htmlContent (extractMediaQueries env.postcss fullCss).nonMediaCss p = .ok h →
        env.purge fullJs (extractMediaQueries env.postcss fullCss).nonMediaCss p = .ok j →
        reduceUnusedCss env htmlContent fullCss fullJs safelist true =
          .ok (removeDuplicateCss env.discardDuplicates (h ++ ['\n'] ++ j) ++ ['\n'] ++
            (extractMediaQueries env.postcss fullCss).mediaCss) := by
  refine ⟨fun h j m => mergeResults_preserveChildren env safelist h j m, ?_⟩
  obtain ⟨p, hp, _⟩ := purgeSafelistOf_ok fullCss safelist true
  refine ⟨p, hp, ?_⟩
  intro h j hh hj
  unfold reduceUnusedCss
  rw [hp]
  simp only [hh, hj]
  exact mergeResults_preserveChildren env safelist h j _

set_option maxRecDepth 100000 in
/-- C7, an instance: a rule and a media block, with collaborators that keep every rule. -/
theorem reduceUnusedCss_preserveChildren_witness :
    reduceUnusedCss keepAllCollaborators []
        ".a:hover\x7bcolor:red\x7d\n@media print\x7b.b\x7btop:0\x7d\x7d\n".toList [] [] true =
      .ok (".a:hover\x7bcolor:red\x7d\n.a:hover\x7bcolor:red\x7d\n".toList ++
        "@media print\x7b.b\x7btop:0\x7d\x7d\n".toList) := by
  obtain ⟨p, _, h⟩ := (reduceUnusedCss_preserveChildren keepAllCollaborators []
    ".a:hover\x7bcolor:red\x7d\n@media print\x7b.b\x7btop:0\x7d\x7d\n".toList [] []).2
  rw [h _ _ rfl rfl]
  decide

/-! ## Duplicate removal -/

/-- C8: `removeDuplicateCss` always returns a text: the input itself when the duplicate-removal
processor fails on it, the processor's output otherwise. -/
theorem removeDuplicateCss_never_fails (processor : Str → Except Error Str) (css : Str) :
    (∀ e, processor css = .error e → removeDuplicateCss processor css = css) ∧
    (∀ out, processor css = .ok out → removeDuplicateCss processor css = out) := by
  constructor
  · intro e h
    simp [removeDuplicateCss, h]
  · intro out h
    simp [removeDuplicateCss, h]

/-- C8, an instance: a processor that rejects the malformed text `a\x7b`, and one that returns
a text. -/
theorem removeDuplicateCss_never_fails_witness :
    removeDuplicateCss (fun _ => .error .malformedCss) "a\x7b".toList = "a\x7b".toList ∧
    removeDuplicateCss (fun _ => .ok ".a\x7b\x7d".toList) ".a\x7b\x7d.a\x7b\x7d".toList =
      ".a\x7b\x7d".toList :=
  ⟨(removeDuplicateCss_never_fails (fun _ => .error .malformedCss) "a\x7b".toList).1
      .malformedCss rfl,
    (removeDuplicateCss_never_fails (fun _ => .ok ".a\x7b\x7d".toList)
      ".a\x7b\x7d.a\x7b\x7d".toList).2 _ rfl⟩


/-! ## The corrective pass -/

theorem isClassNameChar_range (c : Char) (h : isClassNameChar c = true) :
    (48 ≤ c.toNat ∧ c.toNat ≤ 57) ∨ (97 ≤ c.toNat ∧ c.toNat ≤ 122) ∨
      (65 ≤ c.toNat ∧ c.toNat ≤ 90) ∨ c.toNat = 95 ∨ c.toNat = 45 := by
  have h0 : '0'.toNat = 48 := rfl
  have h9 : '9'.toNat = 57 := rfl
  have ha : 'a'.toNat = 97 := rfl
  have hz : 'z'.toNat = 122 := rfl
  have hA : 'A'.toNat = 65 := rfl
  have hZ : 'Z'.toNat = 90 := rfl
  simp only [isClassNameChar, isJsWord, isJsDigit, Bool.or_eq_true, Bool.and_eq_true,
    decide_eq_true_eq, beq_iff_eq, h0, h9, ha, hz, hA, hZ] at h
  rcases h with ((((h | h) | h) | h) | h)
  · exact Or.inl h
  · exact Or.inr (Or.inl h)
  · exact Or.inr (Or.inr (Or.inl h))
  · subst h
    exact Or.inr (Or.inr (Or.inr (Or.inl rfl)))
  · subst h
    exact Or.inr (Or.inr (Or.inr (Or.inr rfl)))

theorem isClassNameChar_not_space (c : Char) (h : isClassNameChar c = true) :
    isJsSpace c = false := by
  have hr := isClassNameChar_range c h
  cases hs : isJsSpace c with
  | false => rfl
  | true =>
    exfalso
    simp only [isJsSpace, Bool.or_eq_true, Bool.and_eq_true, decide_eq_true_eq, beq_iff_eq] at hs
    have e1 : ' '.toNat = 32 := rfl
    have e2 : '\t'.toNat = 9 := rfl
    have e3 : '\n'.toNat = 10 := rfl
    have e4 : '\r'.toNat = 13 := rfl
    rcases hs with (((((((((((((hs | hs) | hs) | hs) | hs) | hs) | hs) | hs) | hs) | hs) | hs) | hs) | hs) | hs) | hs
    all_goals first
      | (subst hs
         simp only [e1, e2, e3, e4] at hr
         omega)
      | omega

theorem isClassNameChar_plain (c : Char) (h : isClassNameChar c = true) :
    c ≠ '\\' ∧ c ≠ '(' ∧ c ≠ ')' ∧ c ≠ '|' ∧ c ≠ '*' ∧ c ≠ '+' ∧ c ≠ '?' ∧ c ≠ '.' ∧
      c ≠ '$' ∧ c ≠ '^' ∧ c ≠ '[' ∧ c ≠ '\x7b' ∧ c ≠ ' ' ∧ c ≠ '>' := by
  refine ⟨?_, ?_, ?_, ?_, ?_, ?_, ?_, ?_, ?_, ?_, ?_, ?_, ?_, ?_⟩ <;>
  · rintro rfl
    revert h
    decide

theorem parseLoop_plain_step (c : Char) (rest : Str) (f : Frame) (stack : List Frame)
    (h : c ≠ '\\' ∧ c ≠ '(' ∧ c ≠ ')' ∧ c ≠ '|' ∧ c ≠ '*' ∧ c ≠ '+' ∧ c ≠ '?' ∧ c ≠ '.' ∧
      c ≠ '$' ∧ c ≠ '^' ∧ c ≠ '[' ∧ c ≠ '\x7b')
    (hbmp : c.toNat < 0x10000) :
    parseLoop (c :: rest) .normal f stack = parseLoop rest .normal (f.push (.chr c)) stack := by
  obtain ⟨h1, h2, h3, h4, h5, h6, h7, h8, h9, h10, h11, h12⟩ := h
  have hb : ¬ 0x10000 ≤ c.toNat := Nat.not_le.2 hbmp
  simp [parseLoop, h1, h2, h3, h4, h5, h6, h7, h8, h9, h10, h11, h12, hbmp]

theorem parseLoop_plain (l : Str) (rest : Str) :
    ∀ (f : Frame) (stack : List Frame), (∀ c ∈ l, isClassNameChar c = true) →
      parseLoop (l ++ rest) .normal f stack =
        parseLoop rest .normal (l.foldl (fun g c => g.push (.chr c)) f) stack := by
  induction l with
  | nil =>
    intro f stack _
    rfl
  | cons c l ih =>
    intro f stack h
    have hc := isClassNameChar_plain c (h c (List.mem_cons_self _ _))
    have hbmp : c.toNat < 0x10000 := by
      have := isClassNameChar_range c (h c (List.mem_cons_self _ _))
      omega
    rw [List.cons_append, parseLoop_plain_step c _ f stack
      ⟨hc.1, hc.2.1, hc.2.2.1, hc.2.2.2.1, hc.2.2.2.2.1, hc.2.2.2.2.2.1, hc.2.2.2.2.2.2.1,
        hc.2.2.2.2.2.2.2.1, hc.2.2.2.2.2.2.2.2.1, hc.2.2.2.2.2.2.2.2.2.1,
        hc.2.2.2.2.2.2.2.2.2.2.1, hc.2.2.2.2.2.2.2.2.2.2.2.1⟩ hbmp]
    rw [ih _ _ (fun x hx => h x (List.mem_cons_of_mem _ hx))]
    rfl

theorem foldl_push_terms (l : Str) :
    ∀ f : Frame, (l.foldl (fun g c => g.push (.chr c)) f).terms =
        (l.map Re.chr).reverse ++ f.terms ∧
      (l.foldl (fun g c => g.push (.chr c)) f).alts = f.alts := by
  induction l with
  | nil =>
    intro f
    simp
  | cons c l ih =>
    intro f
    simp only [List.foldl_cons, List.map_cons, List.reverse_cons, List.append_assoc]
    rw [(ih (f.push (.chr c))).1, (ih (f.push (.chr c))).2]
    simp [Frame.push]

theorem parseLoop_space_plus (f : Frame) :
    parseLoop "\\s+".toList .normal f [] =
      .ok (f.alts.foldl (fun acc a => Re.alt a acc)
        (seqOf (.plus (.cls .space) :: f.terms).reverse)) := by
  have h : "\\s+".toList = ['\\', 's', '+'] := rfl
  rw [h]
  simp [parseLoop, escapeAtom, Frame.push, Frame.quantify, Frame.close]

theorem regExp_childSelector (s : Str) (hs : ∀ c ∈ s, isClassNameChar c = true) :
    RegExp.new (childSelectorSource s) =
      .ok ⟨childSelectorSource s,
        seqOf (('.' :: s).map Re.chr ++ [.plus (.cls .space)])⟩ := by
  have hsrc : childSelectorSource s = '\\' :: '.' :: (s ++ "\\s+".toList) := by
    simp [childSelectorSource]
  have hdot : escapeAtom '.' = some (.chr '.') := by decide
  have h1 : parseLoop (childSelectorSource s) .normal Frame.empty [] =
      parseLoop (s ++ "\\s+".toList) .normal (Frame.empty.push (.chr '.')) [] := by
    rw [hsrc]
    simp [parseLoop, hdot]
  unfold RegExp.new
  rw [h1, parseLoop_plain s _ _ _ hs, parseLoop_space_plus]
  obtain ⟨ht, ha⟩ := foldl_push_terms s (Frame.empty.push (.chr '.'))
  rw [ht, ha]
  simp [Frame.push, Frame.empty]

theorem m_plus_space (post r : Str) (h : r ∈ (seqOf [Re.plus (.cls .space)]).m post) :
    ∃ c rest, post = c :: rest ∧ isJsSpace c = true := by
  cases post with
  | nil => simp [seqOf, Re.m] at h
  | cons x xs =>
    cases hx : isJsSpace x with
    | true => exact ⟨x, xs, rfl, hx⟩
    | false => simp [seqOf, Re.m, CharClass.test, hx] at h

theorem childSelectorTest_className (newRegExp : RegExpConstructor)
    (hreads : ∀ x, isClassName x = true →
      newRegExp (childSelectorSource x) = referenceRegExp (childSelectorSource x))
    (safe selector : Str) (hsafe : isClassName safe = true)
    (hsel : ∀ c ∈ selector, isJsSpace c = false ∧ c ≠ '>') :
    childSelectorTest newRegExp safe selector = .ok false := by
  have hchars : ∀ c ∈ safe, isClassNameChar c = true := by
    simp only [isClassName, Bool.and_eq_true, List.all_eq_true] at hsafe
    exact hsafe.2
  have h1 : startsWith selector ('.' :: safe ++ [' ']) = false := by
    cases h : startsWith selector ('.' :: safe ++ [' ']) with
    | false => rfl
    | true =>
      have hmem : ' ' ∈ selector := mem_of_startsWith h (by simp)
      have := (hsel ' ' hmem).1
      revert this
      decide
  have h2 : startsWith selector ('.' :: safe ++ ['>']) = false := by
    cases h : startsWith selector ('.' :: safe ++ ['>']) with
    | false => rfl
    | true =>
      have hmem : '>' ∈ selector := mem_of_startsWith h (by simp)
      exact absurd rfl (hsel '>' hmem).2
  have h3 : (seqOf (('.' :: safe).map Re.chr ++ [.plus (.cls .space)])).search selector =
      false := by
    cases h : (seqOf (('.' :: safe).map Re.chr ++ [.plus (.cls .space)])).search selector with
    | false => rfl
    | true =>
      exfalso
      obtain ⟨pre, post, hsplit, hm⟩ := (search_iff _ _).1 h
      obtain ⟨r, hr⟩ := (matchesAt_iff _ _).1 hm
      obtain ⟨post2, hpost, hr2⟩ := (mem_m_seqOf_chr ('.' :: safe) _ post r).1 hr
      obtain ⟨c, rest, hc, hspace⟩ := m_plus_space post2 r hr2
      have hmem : c ∈ selector := by
        rw [hsplit, hpost, hc]
        simp
      rw [(hsel c hmem).1] at hspace
      cases hspace
  unfold childSelectorTest
  rw [h1, h2, hreads safe hsafe]
  unfold referenceRegExp
  rw [regExp_childSelector safe hchars]
  simp only [RegExp.test, h3]
  rfl

theorem removesRule_className (newRegExp : RegExpConstructor)
    (hreads : ∀ x, isClassName x = true →
      newRegExp (childSelectorSource x) = referenceRegExp (childSelectorSource x))
    (safelist : List Str)
    (hs : ∀ x ∈ safelist, isClassName x = true) (selector : Str)
    (hsel : ∀ c ∈ selector, isJsSpace c = false ∧ c ≠ '>') :
    removesRule newRegExp safelist selector = .ok false := by
  induction safelist with
  | nil => rfl
  | cons x rest ih =>
    simp only [removesRule, childSelectorTest_className newRegExp hreads x selector
      (hs x (List.mem_cons_self _ _)) hsel]
    exact ih (fun y hy => hs y (List.mem_cons_of_mem _ hy))

theorem className_selector_chars (s : Str) (hs : isClassName s = true) :
    ∀ c ∈ '.' :: s, isJsSpace c = false ∧ c ≠ '>' := by
  intro c hc
  rcases List.mem_cons.1 hc with rfl | hc
  · decide
  · simp only [isClassName, Bool.and_eq_true, List.all_eq_true] at hs
    have h := hs.2 c hc
    exact ⟨isClassNameChar_not_space c h, (isClassNameChar_plain c h).2.2.2.2.2.2.2.2.2.2.2.2.2⟩

/-- C3: for a caller safelist of class-name tokens and an entry `s` of it, no entry of the
safelist passes the removal test on the selector `.s`, the loop of the plugin does not call
`remove`, and the corrective pass keeps a rule with that selector.  This holds with the embedded
pattern reader as the `RegExp` constructor, and with every constructor that reads the pattern
of a class-name token as the embedded reader does. -/
theorem safelisted_class_rule_kept (newRegExp : RegExpConstructor)
    (hreads : ∀ x, isClassName x = true →
      newRegExp (childSelectorSource x) = referenceRegExp (childSelectorSource x))
    (safelist : List Str)
    (hs : ∀ x ∈ safelist, isClassName x = true) (s : Str) (hmem : s ∈ safelist) :
    (∀ x ∈ safelist, childSelectorTest newRegExp x ('.' :: s) = .ok false) ∧
    removesRule newRegExp safelist ('.' :: s) = .ok false ∧
    ∀ body rest body2 rest2,
      removeChildSelectorsPlugin newRegExp safelist body = .ok body2 →
      removeChildSelectorsPlugin newRegExp safelist rest = .ok rest2 →
      removeChildSelectorsPlugin newRegExp safelist (.rule ('.' :: s) body rest) =
        .ok (.rule ('.' :: s) body2 rest2) := by
  have hsel := className_selector_chars s (hs s hmem)
  have hrem := removesRule_className newRegExp hreads safelist hs ('.' :: s) hsel
  refine ⟨fun x hx => childSelectorTest_className newRegExp hreads x _ (hs x hx) hsel, hrem, ?_⟩
  intro body rest body2 rest2 hb hr
  simp [removeChildSelectorsPlugin, hrem, hb, hr]

set_option maxRecDepth 100000 in
/-- C3, an instance: with the embedded pattern reader, the safelist `btn` keeps the rule `.btn`
with the declaration `color:red`. -/
theorem safelisted_class_rule_kept_witness :
    (∀ x ∈ ["btn".toList], isClassName x = true) ∧ "btn".toList ∈ ["btn".toList] ∧
    (∀ x ∈ ["btn".toList], childSelectorTest referenceRegExp x ".btn".toList = .ok false) ∧
    removesRule referenceRegExp ["btn".toList] ".btn".toList = .ok false ∧
    removeChildSelectorsPlugin referenceRegExp ["btn".toList]
        (.rule ".btn".toList (.decl "color:red".toList .nil) .nil) =
      .ok (.rule ".btn".toList (.decl "color:red".toList .nil) .nil) :=
  ⟨by decide, by decide,
    (safelisted_class_rule_kept referenceRegExp (fun _ _ => rfl) ["btn".toList] (by decide)
      "btn".toList (by decide)).1,
    (safelisted_class_rule_kept referenceRegExp (fun _ _ => rfl) ["btn".toList] (by decide)
      "btn".toList (by decide)).2.1,
    (safelisted_class_rule_kept referenceRegExp (fun _ _ => rfl) ["btn".toList] (by decide)
      "btn".toList (by decide)).2.2 _ _ _ _ rfl rfl⟩

theorem childSelectorTest_eq (newRegExp : RegExpConstructor) (safe selector : Str)
    (test : Str → Bool) (h : newRegExp (childSelectorSource safe) = .ok test) :
    childSelectorTest newRegExp safe selector =
      .ok (startsWith selector ('.' :: safe ++ [' ']) ||
        startsWith selector ('.' :: safe ++ ['>']) ||
        regExpMatches newRegExp (childSelectorSource safe) selector) := by
  unfold childSelectorTest regExpMatches
  rw [h]
  cases startsWith selector ('.' :: safe ++ [' ']) <;>
    cases startsWith selector ('.' :: safe ++ ['>']) <;> simp

theorem removesRule_eq (newRegExp : RegExpConstructor) (safelist : List Str)
    (hvalid : ∀ s ∈ safelist, ∃ test, newRegExp (childSelectorSource s) = .ok test)
    (selector : Str) :
    removesRule newRegExp safelist selector =
      .ok (isChildOfSafelisted newRegExp safelist selector) := by
  induction safelist with
  | nil => rfl
  | cons x rest ih =>
    obtain ⟨test, hre⟩ := hvalid x (List.mem_cons_self _ _)
    have ih2 := ih (fun y hy => hvalid y (List.mem_cons_of_mem _ hy))
    simp only [removesRule, childSelectorTest_eq newRegExp x selector test hre,
      isChildOfSafelisted, List.any_cons]
    cases hb : (startsWith selector ('.' :: x ++ [' ']) ||
        startsWith selector ('.' :: x ++ ['>']) ||
        regExpMatches newRegExp (childSelectorSource x) selector) with
    | true => simp
    | false =>
      simp only [Bool.false_or]
      exact ih2

theorem removeChildSelectorsPlugin_eq (newRegExp : RegExpConstructor) (safelist : List Str)
    (hvalid : ∀ s ∈ safelist, ∃ test, newRegExp (childSelectorSource s) = .ok test)
    (css : Css) :
    removeChildSelectorsPlugin newRegExp safelist css =
      .ok (css.dropRules (isChildOfSafelisted newRegExp safelist)) := by
  induction css with
  | nil => rfl
  | decl t rest ih => simp [removeChildSelectorsPlugin, Css.dropRules, ih]
  | rule sel body rest ihb ihr =>
    simp only [removeChildSelectorsPlugin, Css.dropRules,
      removesRule_eq newRegExp safelist hvalid sel]
    cases isChildOfSafelisted newRegExp safelist sel with
    | true => simp [ihr]
    | false => simp [ihb, ihr]
  | atRule n p body rest ihb ihr =>
    simp [removeChildSelectorsPlugin, Css.dropRules, ihb, ihr]
  | atRuleNoBody n p rest ih => simp [removeChildSelectorsPlugin, Css.dropRules, ih]

theorem dropRules_append (p : Str → Bool) (a b : Css) :
    (a.append b).dropRules p = (a.dropRules p).append (b.dropRules p) := by
  induction a with
  | nil => rfl
  | decl t rest ih => simp [Css.append, Css.dropRules, ih]
  | rule sel body rest _ ihr =>
    cases hp : p sel <;> simp [Css.append, Css.dropRules, hp, ihr]
  | atRule n q body rest _ ihr => simp [Css.append, Css.dropRules, ihr]
  | atRuleNoBody n q rest ih => simp [Css.append, Css.dropRules, ih]

theorem removeChildSelectorsPlugin_unchanged (newRegExp : RegExpConstructor)
    (safelist : List Str) (css : Css)
    (h : ∀ sel ∈ css.selectors, removesRule newRegExp safelist sel = .ok false) :
    removeChildSelectorsPlugin newRegExp safelist css = .ok css := by
  induction css with
  | nil => rfl
  | decl t rest ih =>
    simp only [Css.selectors] at h
    simp [removeChildSelectorsPlugin, ih h]
  | rule sel body rest ihb ihr =>
    simp only [Css.selectors, List.mem_cons, List.mem_append] at h
    have h1 := h sel (Or.inl rfl)
    have h2 := ihb (fun x hx => h x (Or.inr (Or.inl hx)))
    have h3 := ihr (fun x hx => h x (Or.inr (Or.inr hx)))
    simp [removeChildSelectorsPlugin, h1, h2, h3]
  | atRule n p body rest ihb ihr =>
    simp only [Css.selectors, List.mem_append] at h
    have h2 := ihb (fun x hx => h x (Or.inl hx))
    have h3 := ihr (fun x hx => h x (Or.inr hx))
    simp [removeChildSelectorsPlugin, h2, h3]
  | atRuleNoBody n p rest ih =>
    simp only [Css.selectors] at h
    simp [removeChildSelectorsPlugin, ih h]

theorem removeChildSelectorsPlugin_append (newRegExp : RegExpConstructor)
    (safelist : List Str) (a : Css) :
    ∀ (a2 b b2 : Css), removeChildSelectorsPlugin newRegExp safelist a = .ok a2 →
      removeChildSelectorsPlugin newRegExp safelist b = .ok b2 →
      removeChildSelectorsPlugin newRegExp safelist (a.append b) = .ok (a2.append b2) := by
  induction a with
  | nil =>
    intro a2 b b2 ha hb
    simp only [removeChildSelectorsPlugin, Except.ok.injEq] at ha
    subst ha
    exact hb
  | decl t rest ih =>
    intro a2 b b2 ha hb
    simp only [removeChildSelectorsPlugin] at ha
    cases hr : removeChildSelectorsPlugin newRegExp safelist rest with
    | error e => simp [hr] at ha
    | ok r2 =>
      simp only [hr, Except.ok.injEq] at ha
      subst ha
      simp [Css.append, removeChildSelectorsPlugin, ih r2 b b2 hr hb]
  | rule sel body rest ihb ihr =>
    intro a2 b b2 ha hb
    simp only [removeChildSelectorsPlugin] at ha
    cases ht : removesRule newRegExp safelist sel with
    | error e => simp [ht] at ha
    | ok flag =>
      cases flag with
      | true =>
        simp only [ht] at ha
        simp [Css.append, removeChildSelectorsPlugin, ht, ihr a2 b b2 ha hb]
      | false =>
        simp only [ht] at ha
        cases hbody : removeChildSelectorsPlugin newRegExp safelist body with
        | error e => simp [hbody] at ha
        | ok body2 =>
          cases hr : removeChildSelectorsPlugin newRegExp safelist rest with
          | error e => simp [hbody, hr] at ha
          | ok r2 =>
            simp only [hbody, hr, Except.ok.injEq] at ha
            subst ha
            simp [Css.append, removeChildSelectorsPlugin, ht, hbody, ihr r2 b b2 hr hb]
  | atRule n p body rest ihb ihr =>
    intro a2 b b2 ha hb
    simp only [removeChildSelectorsPlugin] at ha
    cases hbody : removeChildSelectorsPlugin newRegExp safelist body with
    | error e => simp [hbody] at ha
    | ok body2 =>
      cases hr : removeChildSelectorsPlugin newRegExp safelist rest with
      | error e => simp [hbody, hr] at ha
      | ok r2 =>
        simp only [hbody, hr, Except.ok.injEq] at ha
        subst ha
        simp [Css.append, removeChildSelectorsPlugin, hbody, ihr r2 b b2 hr hb]
  | atRuleNoBody n p rest ih =>
    intro a2 b b2 ha hb
    simp only [removeChildSelectorsPlugin] at ha
    cases hr : removeChildSelectorsPlugin newRegExp safelist rest with
    | error e => simp [hr] at ha
    | ok r2 =>
      simp only [hr, Except.ok.injEq] at ha
      subst ha
      simp [Css.append, removeChildSelectorsPlugin, ih r2 b b2 hr hb]

theorem removeChildSelectorsPlugin_survivors (newRegExp : RegExpConstructor)
    (safelist : List Str) (css : Css) :
    ∀ out, removeChildSelectorsPlugin newRegExp safelist css = .ok out →
      ∀ sel ∈ out.selectors, removesRule newRegExp safelist sel = .ok false := by
  induction css with
  | nil =>
    intro out h sel hsel
    simp only [removeChildSelectorsPlugin, Except.ok.injEq] at h
    subst h
    simp [Css.selectors] at hsel
  | decl t rest ih =>
    intro out h sel hsel
    simp only [removeChildSelectorsPlugin] at h
    cases hr : removeChildSelectorsPlugin newRegExp safelist rest with
    | error e => simp [hr] at h
    | ok r2 =>
      simp only [hr, Except.ok.injEq] at h
      subst h
      exact ih r2 hr sel (by simpa [Css.selectors] using hsel)
  | rule s body rest ihb ihr =>
    intro out h sel hsel
    simp only [removeChildSelectorsPlugin] at h
    cases ht : removesRule newRegExp safelist s with
    | error e => simp [ht] at h
    | ok flag =>
      cases flag with
      | true =>
        simp only [ht] at h
        exact ihr out h sel hsel
      | false =>
        simp only [ht] at h
        cases hbody : removeChildSelectorsPlugin newRegExp safelist body with
        | error e => simp [hbody] at h
        | ok body2 =>
          cases hr : removeChildSelectorsPlugin newRegExp safelist rest with
          | error e => simp [hbody, hr] at h
          | ok r2 =>
            simp only [hbody, hr, Except.ok.injEq] at h
            subst h
            simp only [Css.selectors, List.mem_cons, List.mem_append] at hsel
            rcases hsel with rfl | hsel | hsel
            · exact ht
            · exact ihb body2 hbody sel hsel
            · exact ihr r2 hr sel hsel
  | atRule n p body rest ihb ihr =>
    intro out h sel hsel
    simp only [removeChildSelectorsPlugin] at h
    cases hbody : removeChildSelectorsPlugin newRegExp safelist body with
    | error e => simp [hbody] at h
    | ok body2 =>
      cases hr : removeChildSelectorsPlugin newRegExp safelist rest with
      | error e => simp [hbody, hr] at h
      | ok r2 =>
        simp only [hbody, hr, Except.ok.injEq] at h
        subst h
        simp only [Css.selectors, List.mem_append] at hsel
        rcases hsel with hsel | hsel
        · exact ihb body2 hbody sel hsel
        · exact ihr r2 hr sel hsel
  | atRuleNoBody n p rest ih =>
    intro out h sel hsel
    simp only [removeChildSelectorsPlugin] at h
    cases hr : removeChildSelectorsPlugin newRegExp safelist rest with
    | error e => simp [hr] at h
    | ok r2 =>
      simp only [hr, Except.ok.injEq] at h
      subst h
      exact ih r2 hr sel (by simpa [Css.selectors] using hsel)

theorem mergeResults_flat (env : Collaborators) (safelist : List Str) (h j m : Str)
    (root : Css)
    (hparse : env.postcss.parse (removeDuplicateCss env.discardDuplicates
      (h ++ ['\n'] ++ j) ++ ['\n'] ++ m) = .ok root) :
    mergeResults env safelist false h j m =
      (match removeChildSelectorsPlugin env.regExp safelist root with
      | .error e => .error e
      | .ok root2 => .ok (env.postcss.stringify root2)) := by
  unfold mergeResults
  rw [if_neg (by decide), hparse]

/-- C1, as amended: in the flat strategy the corrective pass treats a rule inside an `@media`
block like any other rule.  Let the merged text of `reduceUnusedCss` (deduplicated purge
results, newline, media text) be read as the standard nodes followed by the media nodes.  When
the pass succeeds on the standard nodes and no rule of the media nodes passes the removal test,
the final stylesheet is the pruned standard nodes followed by the media nodes, unchanged.  When
the pattern of every caller entry builds, the final stylesheet is the standard nodes and the
media nodes, each without exactly the rules that pass the removal test.  Whenever a stylesheet
is returned, no rule left in it, inside a media block or not, passes the removal test. -/
theorem mergeResults_flat_media (env : Collaborators) (safelist : List Str) (h j m : Str)
    (standard media : Css)
    (hparse : env.postcss.parse (removeDuplicateCss env.discardDuplicates
      (h ++ ['\n'] ++ j) ++ ['\n'] ++ m) = .ok (standard.append media)) :
    (∀ standard2, removeChildSelectorsPlugin env.regExp safelist standard = .ok standard2 →
      (∀ sel ∈ media.selectors, removesRule env.regExp safelist sel = .ok false) →
      mergeResults env safelist false h j m =
        .ok (env.postcss.stringify (standard2.append media))) ∧
    ((∀ s ∈ safelist, ∃ test, env.regExp (childSelectorSource s) = .ok test) →
      mergeResults env safelist false h j m =
        .ok (env.postcss.stringify
          ((standard.dropRules (isChildOfSafelisted env.regExp safelist)).append
            (media.dropRules (isChildOfSafelisted env.regExp safelist))))) ∧
    (∀ text, mergeResults env safelist false h j m = .ok text →
      ∃ out, removeChildSelectorsPlugin env.regExp safelist (standard.append media) = .ok out ∧
        text = env.postcss.stringify out ∧
        ∀ sel ∈ out.selectors, removesRule env.regExp safelist sel = .ok false) := by
  have hflat := mergeResults_flat env safelist h j m _ hparse
  refine ⟨?_, ?_, ?_⟩
  · intro standard2 hstd hmedia
    rw [hflat, removeChildSelectorsPlugin_append env.regExp safelist standard standard2 media
      media hstd (removeChildSelectorsPlugin_unchanged env.regExp safelist media hmedia)]
  · intro hvalid
    rw [hflat, removeChildSelectorsPlugin_eq env.regExp safelist hvalid, dropRules_append]
  · intro text htext
    rw [hflat] at htext
    cases hout : removeChildSelectorsPlugin env.regExp safelist (standard.append media) with
    | error e => simp [hout] at htext
    | ok out =>
      simp only [hout, Except.ok.injEq] at htext
      exact ⟨out, rfl, htext.symm,
        removeChildSelectorsPlugin_survivors env.regExp safelist _ out hout⟩

set_option maxRecDepth 100000 in
/-- C1, an instance: with the safelist `btn`, the purge result `.btn .child` and a media block
holding the rule `.card`: the standard rule is removed and the media block is unchanged. -/
theorem mergeResults_flat_media_witness :
    mergeResults keepAllCollaborators ["btn".toList] false
        ".btn .child\x7bcolor:green\x7d".toList []
        "@media (min-width:600px)\x7b.card\x7btop:0\x7d\x7d\n".toList =
      .ok (keepAllCollaborators.postcss.stringify (Css.append .nil
        (.atRule "media".toList "(min-width:600px)".toList
          (.rule ".card".toList (.decl "top:0".toList .nil) .nil) .nil))) :=
  (mergeResults_flat_media keepAllCollaborators ["btn".toList]
    ".btn .child\x7bcolor:green\x7d".toList []
    "@media (min-width:600px)\x7b.card\x7btop:0\x7d\x7d\n".toList
    (.rule ".btn .child".toList (.decl "color:green".toList .nil) .nil)
    (.atRule "media".toList "(min-width:600px)".toList
      (.rule ".card".toList (.decl "top:0".toList .nil) .nil) .nil)
    (by decide)).1 .nil (by decide) (by decide)

set_option maxRecDepth 100000 in
/-- C1, as stated, fails: the purge result `.btn`, the media block `@media (min-width:600px)`
holding the rule `.btn .child`, and the caller safelist `btn`.  The merged text is read as the
rule followed by the media block, the corrective pass removes the rule inside the media block,
and the final stylesheet is the print of the tree whose media block is empty. -/
theorem corrective_pass_touches_media_counterexample :
    referencePostCss.parse
        (".btn\x7bcolor:red\x7d".toList ++ ['\n'] ++ [] ++ ['\n'] ++
          "@media (min-width:600px)\x7b.btn .child\x7bcolor:green\x7d\x7d\n".toList) =
      .ok (.rule ".btn".toList (.decl "color:red".toList .nil)
        (.atRule "media".toList "(min-width:600px)".toList
          (.rule ".btn .child".toList (.decl "color:green".toList .nil) .nil) .nil)) ∧
    removeChildSelectorsPlugin referenceRegExp ["btn".toList]
        (.rule ".btn".toList (.decl "color:red".toList .nil)
          (.atRule "media".toList "(min-width:600px)".toList
            (.rule ".btn .child".toList (.decl "color:green".toList .nil) .nil) .nil)) =
      .ok (.rule ".btn".toList (.decl "color:red".toList .nil)
        (.atRule "media".toList "(min-width:600px)".toList .nil .nil)) ∧
    mergeResults keepAllCollaborators ["btn".toList] false ".btn\x7bcolor:red\x7d".toList []
        "@media (min-width:600px)\x7b.btn .child\x7bcolor:green\x7d\x7d\n".toList =
      .ok (referencePostCss.stringify
        (.rule ".btn".toList (.decl "color:red".toList .nil)
          (.atRule "media".toList "(min-width:600px)".toList .nil .nil))) := by
  decide

set_option maxRecDepth 100000 in
/-- C2, at the failing input: the caller safelist entry `(` and the rule `.a`.  No entry passes
the removal test the claim states (the selector starts neither with `.( ` nor with `.(>`, and
`\.(\s+` is not a regular expression), so the claim keeps the rule; the code builds the pattern
from the unescaped entry, the constructor throws, and the corrective pass, the merge step and
`reduceUnusedCss` fail. -/
theorem corrective_pass_fails_on_unescaped_entry :
    startsWith ".a".toList ('.' :: "(".toList ++ [' ']) = false ∧
    startsWith ".a".toList ('.' :: "(".toList ++ ['>']) = false ∧
    RegExp.new (childSelectorSource "(".toList) = .error .invalidRegExp ∧
    isChildOfSafelisted referenceRegExp ["(".toList] ".a".toList = false ∧
    removeChildSelectorsPlugin referenceRegExp ["(".toList]
        (.rule ".a".toList (.decl "color:red".toList .nil) .nil) =
      .error .invalidRegExp ∧
    mergeResults keepAllCollaborators ["(".toList] false ".a\x7bcolor:red\x7d".toList [] [] =
      .error .invalidRegExp ∧
    reduceUnusedCss keepAllCollaborators [] ".a\x7bcolor:red\x7d\n".toList [] ["(".toList]
        false =
      .error .invalidRegExp := by
  decide

end Velopress
